import Mathlib

/-!
# Verification of the array sort/partition kernels

Shallow embedding of `cpp/src/arrow/compute/kernels/vector_array_sort.cc`:
the sort-indices and partition-nth-indices kernels, the comparison /
counting / boolean / null-only sorters, the adaptive counting-vs-comparison
policy, and the type dispatcher.

Modelling conventions:
* A typed array of `N` logical values is a `List (Option α)`; `none` is a
  null entry, `some v` a valid entry carrying logical value `v`.
* The caller-allocated index buffer (`uint64_t* indices_begin/end`) is a
  `List ℕ`; sorters return the rewritten buffer together with the
  `NullPartitionResult`, whose four pointers are kept as offsets from
  `indices_begin`.
* Machine counters (`uint32_t`/`uint64_t` counter arrays, `int64_t`
  lengths) are modelled as `ℕ`; the code chooses a 32-bit counter type
  only when `length < 2^32`, so counter values (bounded by the length)
  never wrap, and the width choice is behaviourally irrelevant.
* Floating point values are modelled as `WithTop ℚ`, with `⊤` playing the
  role of NaN (greater than every finite value, smaller than null).
-/

namespace ArrowSort

/-- Sort order, from `compute::SortOrder`. -/
inductive SortOrder where
  | Ascending
  | Descending
deriving DecidableEq, Repr

/-- Null placement policy, from `compute::NullPlacement`. -/
inductive NullPlacement where
  | AtStart
  | AtEnd
deriving DecidableEq, Repr

/-- `compute::ArraySortOptions` (order and null placement). -/
structure ArraySortOptions where
  order : SortOrder
  null_placement : NullPlacement
deriving DecidableEq, Repr

/-- `compute::PartitionNthOptions` (pivot rank and null placement). -/
structure PartitionNthOptions where
  pivot : ℕ
  null_placement : NullPlacement
deriving DecidableEq, Repr

/-- Modelled from the spec: `NullPartitionResult` (declared in
`vector_sort_internal.h`, which is not part of the excerpted sources)
records the contiguous sub-range of the index buffer holding non-null
indices and the sub-range holding null indices.  The four C++ pointers are
kept as offsets from `indices_begin`. -/
structure NullPartitionResult where
  nulls_begin : ℕ
  nulls_end : ℕ
  non_nulls_begin : ℕ
  non_nulls_end : ℕ
deriving DecidableEq, Repr

/-- Modelled from the spec: constructor placing the null sub-range at the
start; `m` is the boundary (the C++ midpoint pointer, as an offset). -/
def NullPartitionResult.NullsAtStart (b e m : ℕ) : NullPartitionResult :=
  ⟨b, m, m, e⟩

/-- Modelled from the spec: constructor placing the null sub-range at the
end; `m` is the boundary (the C++ midpoint pointer, as an offset). -/
def NullPartitionResult.NullsAtEnd (b e m : ℕ) : NullPartitionResult :=
  ⟨m, e, b, m⟩

/-- Modelled from the spec: `NullPartitionResult::NullsOnly` — the whole
range is classified null and the empty non-null range sits at the end
dictated by the placement policy (used by the null-type sorter). -/
def NullPartitionResult.NullsOnly (b e : ℕ) (placement : NullPlacement) :
    NullPartitionResult :=
  match placement with
  | .AtStart => ⟨b, e, e, e⟩
  | .AtEnd => ⟨b, e, b, b⟩

/-- The logical value referenced by row `i` (null as `none`).  Out-of-range
access yields `none`; the kernels only dereference in-range rows. -/
def vAt (values : List (Option α)) (i : ℕ) : Option α :=
  values.getD i none

/-- Whether row `i` is valid (non-null). -/
def validAt (values : List (Option α)) (i : ℕ) : Bool :=
  (vAt values i).isSome

/-- The strict `<` comparison the kernels apply to two rows through
`GetView::LogicalValue`.  It is only ever invoked on valid rows; the
extension to null rows (null greater than everything) makes it a strict
weak order on all rows and coincides with the spec's "nulls are max"
ordering rule. -/
def optValLT [LT α] : Option α → Option α → Prop
  | some a, some b => a < b
  | some _, none => True
  | none, _ => False

instance [LT α] [DecidableRel (α := α) (· < ·)] :
    DecidableRel (α := Option α) (optValLT · ·) := by
  intro x y
  cases x <;> cases y <;> simp only [optValLT] <;> infer_instance

/-- Modelled from the spec: `PartitionNulls` with the `StablePartitioner`
(declared in `vector_sort_internal.h`, not part of the excerpted sources).
It moves the indices of null rows contiguously to the end requested by the
placement policy, keeps the relative order of non-null indices (stable
partition), and returns the two sub-ranges. -/
def PartitionNullsStable (values : List (Option α)) (offset : ℕ)
    (buf : List ℕ) (placement : NullPlacement) :
    List ℕ × NullPartitionResult :=
  let nonNulls := buf.filter fun i => validAt values (i - offset)
  let nulls := buf.filter fun i => !validAt values (i - offset)
  match placement with
  | .AtStart =>
      (nulls ++ nonNulls,
        NullPartitionResult.NullsAtStart 0 buf.length nulls.length)
  | .AtEnd =>
      (nonNulls ++ nulls,
        NullPartitionResult.NullsAtEnd 0 buf.length nonNulls.length)

/-- Modelled from the spec: `PartitionNulls` with the
`NonStablePartitioner` (used by the partition-nth kernel).  The spec only
requires the null indices to be grouped at the requested end; the model
instantiates this non-deterministic contract with the stable arrangement,
which is one of its admissible behaviours. -/
def PartitionNullsNonStable (values : List (Option α)) (offset : ℕ)
    (buf : List ℕ) (placement : NullPlacement) :
    List ℕ × NullPartitionResult :=
  PartitionNullsStable values offset buf placement

/-- `std::stable_sort` on a whole list, with a strict-weak-order
comparator `lt`: modelled by the (stable) merge sort from the Lean core
library, sorting by `fun a b => ¬ lt b a`. -/
def stableSortModel (lt : ℕ → ℕ → Bool) (l : List ℕ) : List ℕ :=
  l.mergeSort fun a b => !lt b a

/-- `ArrayCompareSorter::operator()`: partition nulls (stably), then
stable-sort the non-null sub-range of the index buffer.  Ascending order
compares `lhs < rhs`; descending compares `rhs < lhs` (the code avoids
requiring `operator>`). -/
def ArrayCompareSorter [LinearOrder α] (values : List (Option α))
    (buf : List ℕ) (offset : ℕ) (options : ArraySortOptions) :
    List ℕ × NullPartitionResult :=
  let pr := PartitionNullsStable values offset buf options.null_placement
  let buf1 := pr.1
  let p := pr.2
  let cmp : ℕ → ℕ → Bool :=
    match options.order with
    | .Ascending => fun left right =>
        decide (optValLT (vAt values (left - offset)) (vAt values (right - offset)))
    | .Descending => fun left right =>
        decide (optValLT (vAt values (right - offset)) (vAt values (left - offset)))
  let pre := buf1.take p.non_nulls_begin
  let mid := (buf1.drop p.non_nulls_begin).take (p.non_nulls_end - p.non_nulls_begin)
  let post := buf1.drop p.non_nulls_end
  (pre ++ stableSortModel cmp mid ++ post, p)

namespace ArrayCountSorter

/-- The sorter state set by `ArrayCountSorter::SetMinMax`: `min_` and
`value_range_`. -/
structure Cfg where
  min : ℤ
  value_range : ℕ
deriving DecidableEq, Repr

/-- `SetMinMax`: `value_range_ = static_cast(uint32_t)(max - min) + 1` in
`uint32_t` arithmetic (the cast is modelled by `emod 2^32`, the increment
by a further reduction). -/
def SetMinMax (mn mx : ℤ) : Cfg :=
  ⟨mn, (((mx - mn).emod (2 ^ 32)).toNat + 1) % 2 ^ 32⟩

/-- A counter-array update (`++counts[k]`).  The counter array is modelled
as a total function `ℕ → ℕ`. -/
def bump (c : ℕ → ℕ) (k : ℕ) : ℕ → ℕ :=
  fun j => if j = k then c k + 1 else c j

/-- A counter-array store (`counts[k] = v`). -/
def setCtr (c : ℕ → ℕ) (k : ℕ) (v : ℕ) : ℕ → ℕ :=
  fun j => if j = k then v else c j

/-- `VisitRawValuesInline`: visit the rows in order, dispatching on
validity (state-passing form of the two visitor callbacks). -/
def visitRawValues (values : List (Option V)) (init : σ)
    (visitNotNull : σ → V → σ) (visitNull : σ → σ) : σ :=
  values.foldl
    (fun s v => match v with
      | some x => visitNotNull s x
      | none => visitNull s)
    init

/-- `CountValues`: count occurrences of each value into the counter slots
starting at `shift` (the C++ passes `&counts[1]` or `&counts[0]`), bucketed
by `v - min_`. -/
def CountValues (cfg : Cfg) (values : List (Option ℤ)) (shift : ℕ)
    (c : ℕ → ℕ) : ℕ → ℕ :=
  visitRawValues values c
    (fun c v => bump c (shift + (v - cfg.min).toNat))
    (fun c => c)

/-- The ascending prefix-sum loop
`for (i = 1; i <= value_range; ++i) counts[i] += counts[i-1]`. -/
def prefixIncr (c : ℕ → ℕ) (range : ℕ) : ℕ → ℕ :=
  (List.range' 1 range).foldl (fun c i => setCtr c i (c i + c (i - 1))) c

/-- The descending reverse-cumulative loop
`for (i = value_range; i >= 1; --i) counts[i-1] += counts[i]`. -/
def suffixIncr (c : ℕ → ℕ) (range : ℕ) : ℕ → ℕ :=
  (List.range' 1 range).reverse.foldl
    (fun c i => setCtr c (i - 1) (c (i - 1) + c i)) c

/-- `EmitIndices`: second pass; element state is
(index buffer, counter array, `index`, `count_nulls`).  A valid row is
written at `non_nulls_begin + counts[shift + (v - min)]` (then that counter
is incremented); a null row at `nulls_begin + count_nulls`. -/
def EmitIndices (cfg : Cfg) (p : NullPartitionResult)
    (values : List (Option ℤ)) (offset : ℕ) (shift : ℕ) (c : ℕ → ℕ)
    (buf : List ℕ) : List ℕ :=
  (visitRawValues values (buf, c, offset, 0)
    (fun st v =>
      let b := st.1; let c := st.2.1; let idx := st.2.2.1; let cn := st.2.2.2
      (b.set (p.non_nulls_begin + c (shift + (v - cfg.min).toNat)) idx,
        bump c (shift + (v - cfg.min).toNat), idx + 1, cn))
    (fun st =>
      let b := st.1; let c := st.2.1; let idx := st.2.2.1; let cn := st.2.2.2
      (b.set (p.nulls_begin + cn) idx, c, idx + 1, cn + 1))).1

/-- `ArrayCountSorter::SortInternal`. -/
def SortInternal (cfg : Cfg) (values : List (Option ℤ)) (buf : List ℕ)
    (offset : ℕ) (options : ArraySortOptions) :
    List ℕ × NullPartitionResult :=
  let value_range := cfg.value_range
  match options.order with
  | .Ascending =>
      let c1 := CountValues cfg values 1 (fun _ => 0)
      let c2 := prefixIncr c1 value_range
      let p :=
        match options.null_placement with
        | .AtStart =>
            NullPartitionResult.NullsAtStart 0 buf.length
              (buf.length - c2 value_range)
        | .AtEnd =>
            NullPartitionResult.NullsAtEnd 0 buf.length (c2 value_range)
      (EmitIndices cfg p values offset 0 c2 buf, p)
  | .Descending =>
      let c1 := CountValues cfg values 0 (fun _ => 0)
      let c2 := suffixIncr c1 value_range
      let p :=
        match options.null_placement with
        | .AtStart =>
            NullPartitionResult.NullsAtStart 0 buf.length (buf.length - c2 0)
        | .AtEnd =>
            NullPartitionResult.NullsAtEnd 0 buf.length (c2 0)
      (EmitIndices cfg p values offset 1 c2 buf, p)

/-- `ArrayCountSorter::operator()`: the code picks a 32-bit counter type
when `length < 2^32` and a 64-bit one otherwise; both widths are modelled
by `ℕ` (counters are bounded by the length, so neither can wrap). -/
def run (cfg : Cfg) (values : List (Option ℤ)) (buf : List ℕ) (offset : ℕ)
    (options : ArraySortOptions) : List ℕ × NullPartitionResult :=
  if values.length < 2 ^ 32 then SortInternal cfg values buf offset options
  else SortInternal cfg values buf offset options

end ArrayCountSorter

/-- `ArrayCountSorter<BooleanType>::operator()`: three-bucket counting sort
(false / true / null) driven by the precomputed true and null counts. -/
def ArrayCountSorterBool (values : List (Option Bool)) (buf : List ℕ)
    (offset : ℕ) (options : ArraySortOptions) :
    List ℕ × NullPartitionResult :=
  let nulls := values.countP (·.isNone)
  let ones := values.countP (· == some true)
  let zeros := values.length - ones - nulls
  let p :=
    match options.null_placement with
    | .AtStart => NullPartitionResult.NullsAtStart 0 buf.length (0 + nulls)
    | .AtEnd => NullPartitionResult.NullsAtEnd 0 buf.length (buf.length - nulls)
  let c0 : ℕ → ℕ :=
    match options.order with
    | .Ascending => fun k => if k = 1 then zeros else 0
    | .Descending => fun k => if k = 0 then ones else 0
  ((ArrayCountSorter.visitRawValues values (buf, c0, offset)
    (fun st v =>
      let b := st.1; let c := st.2.1; let idx := st.2.2
      (b.set (p.non_nulls_begin + c (if v then 1 else 0)) idx,
        ArrayCountSorter.bump c (if v then 1 else 0), idx + 1))
    (fun st =>
      let b := st.1; let c := st.2.1; let idx := st.2.2
      (b.set (p.nulls_begin + c 2) idx, ArrayCountSorter.bump c 2, idx + 1))).1,
    p)

/-- `ArrayNullSorter::operator()`: no comparisons, the whole range is
null. -/
def ArrayNullSorter (buf : List ℕ) (options : ArraySortOptions) :
    List ℕ × NullPartitionResult :=
  (buf, NullPartitionResult.NullsOnly 0 buf.length options.null_placement)

/-- `countsort_min_len_`. -/
def countsort_min_len : ℕ := 1024

/-- `countsort_max_range_`. -/
def countsort_max_range : ℕ := 4096

/-- Modelled from the spec: `GetMinMax` (from `util_internal.h`, not part
of the excerpted sources) computes the minimum and maximum over the
non-null values; the kernels only call it when at least one value is
non-null. -/
def GetMinMax (values : List (Option ℤ)) : ℤ × ℤ :=
  match values.foldl
      (fun acc v =>
        match acc, v with
        | none, some x => some (x, x)
        | some (mn, mx), some x => some (min mn x, max mx x)
        | acc, none => acc)
      none with
  | some r => r
  | none => (0, 0)

/-- `ArrayCountOrCompareSorter::operator()`: use counting sort when the
array is long enough, has at least one non-null value, and the observed
value range (computed with an overflow-safe `uint64_t` subtraction,
modelled by `emod 2^64`) is small enough; otherwise fall back to the
comparison sorter. -/
def ArrayCountOrCompareSorter (values : List (Option ℤ)) (buf : List ℕ)
    (offset : ℕ) (options : ArraySortOptions) :
    List ℕ × NullPartitionResult :=
  if values.length ≥ countsort_min_len ∧
      values.length > values.countP (·.isNone) then
    let mm := GetMinMax values
    if ((mm.2 - mm.1).emod (2 ^ 64)).toNat ≤ countsort_max_range then
      ArrayCountSorter.run (ArrayCountSorter.SetMinMax mm.1 mm.2) values buf
        offset options
    else ArrayCompareSorter values buf offset options
  else ArrayCompareSorter values buf offset options

/-- Modelled from the spec: `std::nth_element` guarantees that the element
at the pivot position ends up in its sorted position, everything before it
is `≤` it and everything after is `≥` it.  The model instantiates this
non-deterministic contract with a full sort of the sub-range, which is one
of its admissible behaviours (the comparator is the same ascending
`lval < rval` comparison used by the comparison sorter). -/
def nthElementModel [LinearOrder α] (values : List (Option α))
    (buf : List ℕ) (first last : ℕ) : List ℕ :=
  let pre := buf.take first
  let mid := (buf.drop first).take (last - first)
  let post := buf.drop last
  pre ++
    stableSortModel
      (fun left right => decide (optValLT (vAt values left) (vAt values right)))
      mid ++ post

/-- `PartitionNthToIndices<OutType, InType>::Exec` (generic, non-null
types).  Returns the error message (if any) and the output buffer: the
C++ kernel writes into the preallocated `out` buffer only after its
precondition checks, so on error the buffer is returned untouched. -/
def PartitionNthToIndicesExec [LinearOrder α] (values : List (Option α))
    (state : Option PartitionNthOptions) (outBuf : List ℕ) :
    Option String × List ℕ :=
  match state with
  | none => (some ("NthToIndices requires PartitionNthOptions"), outBuf)
  | some options =>
      let pivot := options.pivot
      if pivot > values.length then
        (some ("NthToIndices index out of bound"), outBuf)
      else
        let buf0 := List.range values.length
        if pivot = values.length then (none, buf0)
        else
          let pr := PartitionNullsNonStable values 0 buf0 options.null_placement
          let buf1 := pr.1
          let p := pr.2
          if p.non_nulls_begin ≤ pivot ∧ pivot < p.non_nulls_end then
            (none, nthElementModel values buf1 p.non_nulls_begin p.non_nulls_end)
          else (none, buf1)

/-- `PartitionNthToIndices<OutType, NullType>::Exec`: the null-type
specialization only fills the output with the identity permutation; it
performs no pivot bound check and no null partitioning. -/
def PartitionNthToIndicesNullExec (length : ℕ)
    (state : Option PartitionNthOptions) (outBuf : List ℕ) :
    Option String × List ℕ :=
  match state with
  | none => (some ("NthToIndices requires PartitionNthOptions"), outBuf)
  | some _ => (none, List.range length)

/-! ## Write-schedule machinery

The counting-sort second pass writes each row's index into a distinct
buffer slot.  We capture such a pass as a list of `(position, value)`
writes applied in order. -/

/-- Apply a list of `(position, value)` writes to a buffer, in order. -/
def applyWrites (buf : List ℕ) (ws : List (ℕ × ℕ)) : List ℕ :=
  ws.foldl (fun b pv => b.set pv.1 pv.2) buf

theorem applyWrites_nil (buf : List ℕ) : applyWrites buf [] = buf := rfl

theorem applyWrites_cons (buf : List ℕ) (pv : ℕ × ℕ) (ws : List (ℕ × ℕ)) :
    applyWrites buf (pv :: ws) = applyWrites (buf.set pv.1 pv.2) ws := rfl

theorem length_applyWrites (buf : List ℕ) (ws : List (ℕ × ℕ)) :
    (applyWrites buf ws).length = buf.length := by
  induction ws generalizing buf with
  | nil => rfl
  | cons pv ws ih => rw [applyWrites_cons, ih, List.length_set]

theorem applyWrites_getElem?_of_not_mem (buf : List ℕ) (ws : List (ℕ × ℕ))
    (q : ℕ) (hq : q ∉ ws.map Prod.fst) :
    (applyWrites buf ws)[q]? = buf[q]? := by
  induction ws generalizing buf with
  | nil => rfl
  | cons pv ws ih =>
      simp only [List.map_cons, List.mem_cons, not_or] at hq
      rw [applyWrites_cons, ih _ hq.2, List.getElem?_set_ne (Ne.symm hq.1)]

theorem applyWrites_getElem?_of_mem (buf : List ℕ) (ws : List (ℕ × ℕ))
    (q x : ℕ) (hnd : (ws.map Prod.fst).Nodup) (hmem : (q, x) ∈ ws)
    (hq : q < buf.length) : (applyWrites buf ws)[q]? = some x := by
  induction ws generalizing buf with
  | nil => cases hmem
  | cons pv ws ih =>
      simp only [List.map_cons, List.nodup_cons] at hnd
      rcases List.mem_cons.mp hmem with h | h
      · cases h
        rw [applyWrites_cons,
          applyWrites_getElem?_of_not_mem _ _ _ (by simpa using hnd.1)]
        simp [List.getElem?_set_self (by simpa using hq)]
      · exact (applyWrites_cons ..).symm ▸ ih (buf.set pv.1 pv.2) hnd.2 h
          (by simpa using hq)

/-! ## Counting and ranking helpers over index ranges -/

/-- Count-over-values equals count-over-row-indices, restricted to the
first `t` rows. -/
theorem countP_take_eq_range (values : List (Option V)) (p : Option V → Bool)
    (t : ℕ) (ht : t ≤ values.length) :
    (values.take t).countP p =
      (List.range t).countP fun j => p (vAt values j) := by
  induction t with
  | zero => simp
  | succ t ih =>
      have ht' : t < values.length := Nat.lt_of_succ_le ht
      rw [List.take_succ, List.range_succ, List.countP_append, List.countP_append,
        ih (Nat.le_of_lt ht')]
      have : values[t]? = some values[t] := List.getElem?_eq_getElem ht'
      simp [this, vAt, List.getD_eq_getElem?_getD, List.countP_cons]

/-- Count-over-values equals count-over-row-indices (whole array). -/
theorem countP_eq_range (values : List (Option V)) (p : Option V → Bool) :
    values.countP p = (List.range values.length).countP fun j => p (vAt values j) := by
  simpa using countP_take_eq_range values p values.length le_rfl

/-- Splitting a filter along two mutually exclusive predicates, up to
permutation. -/
theorem filter_disjoint_perm (p q : V → Bool) (l : List V)
    (h : ∀ a ∈ l, ¬(p a = true ∧ q a = true)) :
    List.Perm (l.filter p ++ l.filter q) (l.filter fun a => p a || q a) := by
  induction l with
  | nil => simp
  | cons a l ih =>
      have hl := fun b hb => h b (List.mem_cons_of_mem a hb)
      have ha := h a (List.mem_cons_self a l)
      by_cases hp : p a = true
      · have hq : q a = false := by
          cases hqa : q a
          · rfl
          · exact absurd ⟨hp, hqa⟩ ha
        simpa [List.filter_cons, hp, hq] using (ih hl).cons a
      · have hp' : p a = false := by simpa using hp
        by_cases hq : q a = true
        · simp only [List.filter_cons, hp', hq, Bool.false_or]
          exact (List.perm_middle.trans ((ih hl).cons a))
        · have hq' : q a = false := by simpa using hq
          simpa [List.filter_cons, hp', hq'] using ih hl

/-- Counting splits along two mutually exclusive predicates. -/
theorem countP_disjoint (p q : V → Bool) (l : List V)
    (h : ∀ a ∈ l, ¬(p a = true ∧ q a = true)) :
    l.countP (fun a => p a || q a) = l.countP p + l.countP q := by
  have := (filter_disjoint_perm p q l h).length_eq
  simpa [List.countP_eq_length_filter] using this.symm

/-- Rank of an element inside a filtered range: if `p j` holds then the
filtered range lists `j` at position `(range j).countP p`. -/
theorem filter_range_rank (p : ℕ → Bool) (N j : ℕ) (hj : j < N)
    (hp : p j = true) :
    ((List.range N).filter p)[(List.range j).countP p]? = some j := by
  have hsplit : List.range N = List.range j ++ List.range' j (N - j) := by
    rw [List.range_eq_range', List.range_eq_range']
    have h2 : N - j + j = N := by omega
    have h3 := List.range'_append_1 0 j (N - j)
    simp only [Nat.zero_add, h2] at h3
    exact h3.symm
  have hNj : N - j = (N - j - 1) + 1 := by omega
  have hrange' : List.range' j (N - j) = j :: List.range' (j + 1) (N - j - 1) := by
    rw [hNj]; rfl
  rw [hsplit, List.filter_append, hrange', List.filter_cons, hp]
  rw [List.getElem?_append_right (by
    simp [List.countP_eq_length_filter])]
  simp [List.countP_eq_length_filter]

/-! ## Canonical layouts

Specification vocabulary: the indices of valid and null rows, the segment
of valid rows carrying a given output rank, and the canonical stable
bucketed layout that the counting sorters will be shown to produce.  The
rank map `f` sends a logical value to its bucket position in output order
(for ascending integer sort it is `v - min`; for descending sort the
reversed bucket). -/

/-- Output rank of row `j` under the rank map `f` (`0` for null rows; only
used on valid rows). -/
def fAt (values : List (Option V)) (f : V → ℕ) (j : ℕ) : ℕ :=
  match vAt values j with
  | some x => f x
  | none => 0

/-- Indices of valid rows, in original order. -/
def nonNullIdx (values : List (Option V)) : List ℕ :=
  (List.range values.length).filter (validAt values)

/-- Indices of null rows, in original order. -/
def nullIdx (values : List (Option V)) : List ℕ :=
  (List.range values.length).filter fun j => !validAt values j

/-- Indices of valid rows of rank `s`, in original order. -/
def segIdx (values : List (Option V)) (f : V → ℕ) (s : ℕ) : List ℕ :=
  (List.range values.length).filter fun j =>
    validAt values j && (fAt values f j == s)

/-- The canonical stable bucketed arrangement of the valid rows: all rows
of rank `0`, then rank `1`, …, each group in original order. -/
def targetIdx (values : List (Option V)) (f : V → ℕ) (R : ℕ) : List ℕ :=
  (List.range R).flatMap (segIdx values f)

/-- Number of valid rows of rank `< s`. -/
def cntLt (values : List (Option V)) (f : V → ℕ) (s : ℕ) : ℕ :=
  (List.range values.length).countP fun j =>
    validAt values j && decide (fAt values f j < s)

/-- Number of valid rows of rank `s` among the first `t` rows. -/
def cntEqBefore (values : List (Option V)) (f : V → ℕ) (s t : ℕ) : ℕ :=
  (List.range t).countP fun j => validAt values j && (fAt values f j == s)

/-- Number of null rows among the first `t` rows. -/
def nullsBefore (values : List (Option V)) (t : ℕ) : ℕ :=
  (List.range t).countP fun j => !validAt values j

/-- Final arrangement of the index buffer: the non-null block and the null
block, in the order dictated by the placement policy. -/
def layoutOf (placement : NullPlacement) (nn nl : List ℕ) : List ℕ :=
  match placement with
  | .AtStart => nl ++ nn
  | .AtEnd => nn ++ nl

/-- The buffer slot that the counting sorters assign to row `j`, given the
offsets of the non-null and null blocks. -/
def posOf (values : List (Option V)) (f : V → ℕ) (nnb nb : ℕ) (j : ℕ) : ℕ :=
  if validAt values j then
    nnb + cntLt values f (fAt values f j) + cntEqBefore values f (fAt values f j) j
  else nb + nullsBefore values j

theorem bool_succ_step (v : Bool) (x R : ℕ) :
    (v && decide (x < R) || v && (x == R)) = (v && decide (x < R + 1)) := by
  cases v
  · simp
  · simp only [Bool.true_and]
    rw [Bool.eq_iff_iff]
    simp only [Bool.or_eq_true, decide_eq_true_eq, beq_iff_eq]
    omega

theorem targetIdx_perm_filter (values : List (Option V)) (f : V → ℕ) (R : ℕ) :
    List.Perm (targetIdx values f R)
      ((List.range values.length).filter fun j =>
        validAt values j && decide (fAt values f j < R)) := by
  induction R with
  | zero => simp [targetIdx]
  | succ R ih =>
      rw [targetIdx, List.range_succ, List.flatMap_append]
      simp only [List.flatMap_cons, List.flatMap_nil, List.append_nil]
      refine (ih.append (List.Perm.refl (segIdx values f R))).trans ?_
      refine (filter_disjoint_perm _ _ _ ?_).trans (List.Perm.of_eq ?_)
      · intro a _ ⟨h1, h2⟩
        simp only [Bool.and_eq_true, decide_eq_true_eq, beq_iff_eq] at h1 h2
        omega
      · exact List.filter_congr fun a _ => bool_succ_step _ _ _

theorem targetIdx_perm_nonNullIdx (values : List (Option V)) (f : V → ℕ)
    (R : ℕ) (hR : ∀ j, validAt values j = true → fAt values f j < R) :
    List.Perm (targetIdx values f R) (nonNullIdx values) := by
  refine (targetIdx_perm_filter values f R).trans (List.Perm.of_eq ?_)
  refine List.filter_congr fun a _ => ?_
  cases hval : validAt values a <;> simp [hval, hR a]

theorem mem_segIdx {values : List (Option V)} {f : V → ℕ} {s j : ℕ} :
    j ∈ segIdx values f s ↔
      j < values.length ∧ validAt values j = true ∧ fAt values f j = s := by
  simp [segIdx, List.mem_filter, and_assoc]

theorem targetIdx_pairwise (values : List (Option V)) (f : V → ℕ) (R : ℕ) :
    (targetIdx values f R).Pairwise fun i j =>
      fAt values f i < fAt values f j ∨
        (fAt values f i = fAt values f j ∧ i < j) := by
  rw [targetIdx, List.pairwise_flatMap]
  constructor
  · intro s _
    have : (segIdx values f s).Pairwise (· < ·) :=
      (List.pairwise_lt_range values.length).filter _
    refine this.imp_of_mem fun hx hy hlt => ?_
    have hx' := mem_segIdx.mp hx
    have hy' := mem_segIdx.mp hy
    exact Or.inr ⟨by rw [hx'.2.2, hy'.2.2], hlt⟩
  · refine (List.pairwise_lt_range R).imp_of_mem fun {s₁ s₂} _ _ hlt => ?_
    intro x hx y hy
    have hx' := mem_segIdx.mp hx
    have hy' := mem_segIdx.mp hy
    exact Or.inl (by rw [hx'.2.2, hy'.2.2]; exact hlt)

theorem length_targetIdx (values : List (Option V)) (f : V → ℕ) (s : ℕ) :
    (targetIdx values f s).length = cntLt values f s := by
  induction s with
  | zero => simp [targetIdx, cntLt]
  | succ s ih =>
      rw [targetIdx, List.range_succ, List.flatMap_append]
      simp only [List.flatMap_cons, List.flatMap_nil, List.append_nil,
        List.length_append]
      rw [← targetIdx, ih, cntLt, cntLt]
      have hsplit := countP_disjoint
        (fun j => validAt values j && decide (fAt values f j < s))
        (fun j => validAt values j && (fAt values f j == s))
        (List.range values.length)
        (by
          intro a _ ⟨h1, h2⟩
          simp only [Bool.and_eq_true, decide_eq_true_eq, beq_iff_eq] at h1 h2
          omega)
      rw [show (List.countP (fun j => validAt values j &&
            decide (fAt values f j < s + 1)) (List.range values.length)) =
          (List.countP (fun j =>
            (validAt values j && decide (fAt values f j < s)) ||
            (validAt values j && (fAt values f j == s)))
            (List.range values.length)) from ?_, hsplit]
      · rw [segIdx, ← List.countP_eq_length_filter]
      · refine List.countP_congr fun a _ => ?_
        rw [← bool_succ_step (validAt values a) (fAt values f a) s]

theorem targetIdx_rank (values : List (Option V)) (f : V → ℕ) (R j : ℕ)
    (hj : j < values.length) (hv : validAt values j = true)
    (hR : ∀ i, validAt values i = true → fAt values f i < R) :
    (targetIdx values f R)[cntLt values f (fAt values f j) +
      cntEqBefore values f (fAt values f j) j]? = some j := by
  set s₀ := fAt values f j with hs₀
  have hs₀R : s₀ < R := hR j hv
  have hseg : (segIdx values f s₀)[cntEqBefore values f s₀ j]? = some j := by
    rw [segIdx, cntEqBefore]
    exact filter_range_rank _ _ j hj (by simp [hv])
  have hsplit : List.range R = List.range s₀ ++ List.range' s₀ (R - s₀) := by
    rw [List.range_eq_range', List.range_eq_range']
    have h2 : R - s₀ + s₀ = R := by omega
    have h3 := List.range'_append_1 0 s₀ (R - s₀)
    simp only [Nat.zero_add, h2] at h3
    exact h3.symm
  have hrange' : List.range' s₀ (R - s₀) =
      s₀ :: List.range' (s₀ + 1) (R - s₀ - 1) := by
    have h4 : R - s₀ = (R - s₀ - 1) + 1 := by omega
    rw [h4]; rfl
  rw [targetIdx, hsplit, List.flatMap_append, List.getElem?_append_right
      (by rw [← targetIdx, length_targetIdx]; omega),
    ← targetIdx, length_targetIdx, Nat.add_sub_cancel_left, hrange']
  simp only [List.flatMap_cons]
  rw [List.getElem?_append_left]
  · exact hseg
  · obtain ⟨hlt, -⟩ := List.getElem?_eq_some_iff.mp hseg
    exact hlt

theorem nullIdx_rank (values : List (Option V)) (j : ℕ)
    (hj : j < values.length) (hv : validAt values j = false) :
    (nullIdx values)[nullsBefore values j]? = some j := by
  rw [nullIdx, nullsBefore]
  exact filter_range_rank _ _ j hj (by simp [hv])

theorem length_nonNull_add_null (values : List (Option V)) :
    (nonNullIdx values).length + (nullIdx values).length = values.length := by
  rw [nonNullIdx, nullIdx, ← List.countP_eq_length_filter,
    ← List.countP_eq_length_filter]
  have h := List.length_eq_countP_add_countP (l := List.range values.length)
    (p := validAt values)
  simp only [List.length_range] at h
  have h2 : List.countP (fun a => decide (¬ validAt values a = true))
      (List.range values.length) =
      List.countP (fun j => !validAt values j) (List.range values.length) :=
    List.countP_congr fun a _ => by cases hval : validAt values a <;> simp [hval]
  omega

theorem layout_perm_range (values : List (Option V))
    (placement : NullPlacement) :
    List.Perm (layoutOf placement (nonNullIdx values) (nullIdx values))
      (List.range values.length) := by
  have h := filter_disjoint_perm (validAt values)
    (fun j => !validAt values j) (List.range values.length)
    (by intro a _ ⟨h1, h2⟩; simp [h1] at h2)
  have h2 : List.Perm (nonNullIdx values ++ nullIdx values)
      (List.range values.length) := by
    refine h.trans (List.Perm.of_eq ?_)
    refine (List.filter_congr fun a _ => ?_).trans (List.filter_true _)
    cases hval : validAt values a <;> simp [hval]
  cases placement with
  | AtEnd => exact h2
  | AtStart => exact (List.perm_append_comm).trans h2

/-! ## Counter-array characterizations -/

namespace ArrayCountSorter

theorem bump_apply (c : ℕ → ℕ) (k j : ℕ) :
    bump c k j = if j = k then c k + 1 else c j := rfl

theorem setCtr_apply (c : ℕ → ℕ) (k v j : ℕ) :
    setCtr c k v j = if j = k then v else c j := rfl

theorem visitRawValues_nil (init : σ) (f : σ → V → σ) (g : σ → σ) :
    visitRawValues [] init f g = init := rfl

theorem visitRawValues_cons_some (x : V) (rest : List (Option V)) (init : σ)
    (f : σ → V → σ) (g : σ → σ) :
    visitRawValues (some x :: rest) init f g =
      visitRawValues rest (f init x) f g := rfl

theorem visitRawValues_cons_none (rest : List (Option V)) (init : σ)
    (f : σ → V → σ) (g : σ → σ) :
    visitRawValues (none :: rest) init f g =
      visitRawValues rest (g init) f g := rfl

/-- What `CountValues` leaves in slot `k`: the previous contents plus the
number of valid values whose shifted bucket is `k`. -/
theorem CountValues_apply (cfg : Cfg) (values : List (Option ℤ)) (shift : ℕ)
    (c : ℕ → ℕ) (k : ℕ) :
    CountValues cfg values shift c k =
      c k + values.countP fun v =>
        match v with
        | some x => shift + (x - cfg.min).toNat == k
        | none => false := by
  induction values generalizing c with
  | nil => simp [CountValues, visitRawValues]
  | cons v rest ih =>
      cases v with
      | none =>
          rw [CountValues, visitRawValues_cons_none, ← CountValues,
            List.countP_cons, ih]
          simp
      | some x =>
          rw [CountValues, visitRawValues_cons_some, ← CountValues,
            List.countP_cons, ih, bump_apply]
          by_cases hk : k = shift + (x - cfg.min).toNat
          · simp [hk]; omega
          · have hne : ¬(shift + (x - cfg.min).toNat == k) = true := by
              simpa using fun h => hk h.symm
            simp [hk, hne]

/-- `prefixIncr` turns slot `k ≤ range` into the prefix sum of the
original slots `0..k` and leaves slots `> range` untouched. -/
theorem prefixIncr_apply (c : ℕ → ℕ) (R : ℕ) :
    ∀ k, prefixIncr c R k =
      if k ≤ R then ∑ i ∈ Finset.range (k + 1), c i else c k := by
  induction R with
  | zero =>
      intro k
      by_cases hk : k ≤ 0
      · interval_cases k
        simp [prefixIncr]
      · simp [prefixIncr, hk]
  | succ R ih =>
      intro k
      have hstep : prefixIncr c (R + 1) =
          setCtr (prefixIncr c R) (R + 1)
            (prefixIncr c R (R + 1) + prefixIncr c R R) := by
        rw [prefixIncr, prefixIncr, List.range'_1_concat, List.foldl_append,
          Nat.add_comm 1 R]
        simp
      rw [hstep, setCtr_apply]
      by_cases hk : k = R + 1
      · subst hk
        rw [if_pos rfl, if_pos le_rfl, ih, ih, if_neg (by omega), if_pos le_rfl,
          Finset.sum_range_succ (f := c) (n := R + 1),
          Finset.sum_range_succ (f := c) (n := R)]
        omega
      · rw [if_neg hk, ih]
        by_cases hk2 : k ≤ R
        · rw [if_pos hk2, if_pos (by omega)]
        · rw [if_neg hk2, if_neg (by omega)]

/-- `suffixIncr` turns slot `k ≤ range` into the sum of the original
slots `k..range` (stated additively to avoid truncated subtraction) and
leaves slots `> range` untouched. -/
theorem suffixIncr_apply (c : ℕ → ℕ) (R : ℕ) :
    ∀ k, (k ≤ R →
        suffixIncr c R k + ∑ i ∈ Finset.range k, c i =
          ∑ i ∈ Finset.range (R + 1), c i) ∧
      (R < k → suffixIncr c R k = c k) := by
  induction R generalizing c with
  | zero =>
      intro k
      refine ⟨fun hk => ?_, fun hk => ?_⟩
      · interval_cases k
        simp [suffixIncr]
      · simp [suffixIncr]
  | succ R ih =>
      intro k
      have hstep : suffixIncr c (R + 1) =
          suffixIncr (setCtr c R (c R + c (R + 1))) R := by
        rw [suffixIncr, suffixIncr, List.range'_1_concat, List.reverse_append,
          Nat.add_comm 1 R]
        simp
      have hsum : ∑ i ∈ Finset.range (R + 1), setCtr c R (c R + c (R + 1)) i =
          ∑ i ∈ Finset.range (R + 2), c i := by
        rw [Finset.sum_range_succ, Finset.sum_range_succ (f := c) (n := R + 1),
          Finset.sum_range_succ (f := c) (n := R)]
        have h1 : ∑ i ∈ Finset.range R, setCtr c R (c R + c (R + 1)) i =
            ∑ i ∈ Finset.range R, c i :=
          Finset.sum_congr rfl fun i hi => by
            rw [setCtr_apply, if_neg (by
              have := Finset.mem_range.mp hi; omega)]
        rw [h1, setCtr_apply, if_pos rfl]
        omega
      refine ⟨fun hk => ?_, fun hk => ?_⟩
      · by_cases hkR : k ≤ R
        · have h2 : ∑ i ∈ Finset.range k, setCtr c R (c R + c (R + 1)) i =
              ∑ i ∈ Finset.range k, c i :=
            Finset.sum_congr rfl fun i hi => by
              rw [setCtr_apply, if_neg (by
                have := Finset.mem_range.mp hi; omega)]
          rw [hstep, ← h2, (ih (setCtr c R (c R + c (R + 1))) k).1 hkR, hsum]
        · have hkeq : k = R + 1 := by omega
          subst hkeq
          rw [hstep, (ih (setCtr c R (c R + c (R + 1))) (R + 1)).2 (by omega),
            setCtr_apply, if_neg (by omega),
            Finset.sum_range_succ (f := c) (n := R + 1),
            Finset.sum_range_succ (f := c) (n := R)]
          omega
      · rw [hstep, (ih (setCtr c R (c R + c (R + 1))) k).2 (by omega),
          setCtr_apply, if_neg (by omega)]

/-- The predicate "is a valid value whose counter key is exactly `i`". -/
def keyPred (κ : V → ℕ) (i : ℕ) : Option V → Bool
  | some x => κ x == i
  | none => false

/-- The predicate "is a valid value whose counter key is below `m`". -/
def keyLtPred (κ : V → ℕ) (m : ℕ) : Option V → Bool
  | some x => decide (κ x < m)
  | none => false

/-- The predicate "is a valid value whose counter key is above `m`". -/
def keyGtPred (κ : V → ℕ) (m : ℕ) : Option V → Bool
  | some x => decide (m < κ x)
  | none => false

/-- Summing per-bucket counts over `range m` counts the values with bucket
below `m`. -/
theorem sum_bucket_counts (values : List (Option V)) (κ : V → ℕ) (m : ℕ) :
    ∑ i ∈ Finset.range m, values.countP (keyPred κ i) =
      values.countP (keyLtPred κ m) := by
  induction m with
  | zero =>
      simp only [Finset.range_zero, Finset.sum_empty]
      symm
      rw [List.countP_eq_zero]
      intro v _
      cases v <;> simp [keyLtPred]
  | succ m ih =>
      rw [Finset.sum_range_succ, ih]
      have hsplit := countP_disjoint (keyLtPred κ m) (keyPred κ m) values
        (by
          intro a _ h
          obtain ⟨h1, h2⟩ := h
          cases a with
          | none => simp [keyLtPred] at h1
          | some x =>
              simp only [keyLtPred, keyPred, decide_eq_true_eq,
                beq_iff_eq] at h1 h2
              omega)
      rw [← hsplit]
      refine List.countP_congr fun a _ => ?_
      cases a with
      | none => simp [keyLtPred, keyPred]
      | some x =>
          simp only [keyLtPred, keyPred, Bool.or_eq_true, decide_eq_true_eq,
            beq_iff_eq]
          omega

end ArrayCountSorter

/-! ## The emit pass as a write schedule -/

/-- Step-indexed helpers for positions of rows below a cutoff. -/
theorem cntEqBefore_succ (values : List (Option V)) (f : V → ℕ) (s t : ℕ) :
    cntEqBefore values f s (t + 1) =
      cntEqBefore values f s t +
        (if validAt values t && (fAt values f t == s) then 1 else 0) := by
  rw [cntEqBefore, cntEqBefore, List.range_succ, List.countP_append]
  simp [List.countP_cons]

theorem nullsBefore_succ (values : List (Option V)) (t : ℕ) :
    nullsBefore values (t + 1) =
      nullsBefore values t + (if validAt values t then 0 else 1) := by
  rw [nullsBefore, nullsBefore, List.range_succ, List.countP_append]
  cases hv : validAt values t <;> simp [List.countP_cons, hv]

theorem vAt_eq_getElem (values : List (Option V)) (t : ℕ)
    (ht : t < values.length) : vAt values t = values[t] := by
  rw [vAt, List.getD_eq_getElem?_getD, List.getElem?_eq_getElem ht]
  rfl

/-- The sequence of `(slot, index)` writes performed by the counting-sort
emit pass, with counter-key map `κ`. -/
def intSched (nnb nb : ℕ) (κ : V → ℕ) :
    (ℕ → ℕ) → ℕ → ℕ → List (Option V) → List (ℕ × ℕ)
  | _, _, _, [] => []
  | c, idx, cn, some x :: rest =>
      (nnb + c (κ x), idx) ::
        intSched nnb nb κ (ArrayCountSorter.bump c (κ x)) (idx + 1) cn rest
  | c, idx, cn, none :: rest =>
      (nb + cn, idx) :: intSched nnb nb κ c (idx + 1) (cn + 1) rest

/-- The emit pass writes exactly its schedule. -/
theorem emit_fold_eq_applyWrites (cfg : ArrayCountSorter.Cfg)
    (p : NullPartitionResult) (shift : ℕ) :
    ∀ (values : List (Option ℤ)) (buf : List ℕ) (c : ℕ → ℕ) (idx cn : ℕ),
      (ArrayCountSorter.visitRawValues values (buf, c, idx, cn)
        (fun st v =>
          let b := st.1; let c := st.2.1; let idx := st.2.2.1; let cn := st.2.2.2
          (b.set (p.non_nulls_begin + c (shift + (v - cfg.min).toNat)) idx,
            ArrayCountSorter.bump c (shift + (v - cfg.min).toNat), idx + 1, cn))
        (fun st =>
          let b := st.1; let c := st.2.1; let idx := st.2.2.1; let cn := st.2.2.2
          (b.set (p.nulls_begin + cn) idx, c, idx + 1, cn + 1))).1 =
      applyWrites buf
        (intSched p.non_nulls_begin p.nulls_begin
          (fun x => shift + (x - cfg.min).toNat) c idx cn values) := by
  intro values
  induction values with
  | nil => intro buf c idx cn; rfl
  | cons v rest ih =>
      intro buf c idx cn
      cases v with
      | some x =>
          rw [ArrayCountSorter.visitRawValues_cons_some]
          exact ih _ _ _ _
      | none =>
          rw [ArrayCountSorter.visitRawValues_cons_none]
          exact ih _ _ _ _

/-- `EmitIndices` rewritten through its write schedule. -/
theorem EmitIndices_eq_applyWrites (cfg : ArrayCountSorter.Cfg)
    (p : NullPartitionResult) (values : List (Option ℤ)) (offset shift : ℕ)
    (c : ℕ → ℕ) (buf : List ℕ) :
    ArrayCountSorter.EmitIndices cfg p values offset shift c buf =
      applyWrites buf
        (intSched p.non_nulls_begin p.nulls_begin
          (fun x => shift + (x - cfg.min).toNat) c offset 0 values) :=
  emit_fold_eq_applyWrites cfg p shift values buf c offset 0

/-- The write schedule sends each row to its canonical position, provided
the counters start as the number of already-placed rows of each rank. -/
theorem intSched_spec (values : List (Option V)) (κ f : V → ℕ) (nnb nb : ℕ)
    (hκ : ∀ x y, (some x) ∈ values → (some y) ∈ values →
      (κ x = κ y ↔ f x = f y)) :
    ∀ (fuel t : ℕ) (c : ℕ → ℕ) (cn : ℕ), fuel = values.length - t →
      (∀ x, (some x) ∈ values →
        c (κ x) = cntLt values f (f x) + cntEqBefore values f (f x) t) →
      cn = nullsBefore values t →
      intSched nnb nb κ c t cn (values.drop t) =
        (List.range' t (values.length - t)).map
          fun j => (posOf values f nnb nb j, j) := by
  intro fuel
  induction fuel with
  | zero =>
      intro t c cn hfuel hc hcn
      have hle : values.length ≤ t := by omega
      rw [List.drop_eq_nil_of_le hle, show values.length - t = 0 from by omega]
      rfl
  | succ n ih =>
      intro t c cn hfuel hc hcn
      have ht : t < values.length := by omega
      have hdrop := List.drop_eq_getElem_cons (l := values) ht
      have hvt : vAt values t = values[t] := vAt_eq_getElem values t ht
      have hcount : values.length - t = n + 1 := by omega
      rw [hdrop, hcount]
      show _ = ((t :: List.range' (t + 1) n).map
        fun j => (posOf values f nnb nb j, j))
      cases hxt : values[t] with
      | some x =>
          have hmem : (some x) ∈ values := by
            rw [← hxt]; exact List.getElem_mem ht
          have hvalid : validAt values t = true := by
            rw [validAt, hvt, hxt]; rfl
          have hfAt : fAt values f t = f x := by
            rw [fAt, hvt, hxt]
          rw [intSched, List.map_cons]
          refine congrArg₂ _ ?_ ?_
          · rw [posOf, if_pos hvalid, hfAt, hc x hmem]
            simp only [Prod.mk.injEq]
            refine ⟨by omega, ?_⟩
            simp
          · rw [show n = values.length - (t + 1) from by omega]
            refine ih (t + 1) _ cn (by omega) ?_ ?_
            · intro y hy
              rw [ArrayCountSorter.bump_apply]
              by_cases hkey : κ y = κ x
              · have hfy : f y = f x := (hκ y x hy hmem).mp hkey
                rw [if_pos hkey, hc x hmem, cntEqBefore_succ, hfy, hfAt]
                simp only [hvalid, Bool.true_and, beq_self_eq_true, if_pos]
                omega
              · have hfy : ¬(f y = f x) := fun h =>
                  hkey ((hκ y x hy hmem).mpr h)
                rw [if_neg hkey, hc y hy, cntEqBefore_succ, hfAt]
                have : ¬((f x == f y) = true) := by
                  simpa using fun h => hfy h.symm
                simp [hvalid, this]
            · rw [hcn, nullsBefore_succ, hvalid]
              simp
      | none =>
          have hvalid : validAt values t = false := by
            rw [validAt, hvt, hxt]; rfl
          rw [intSched, List.map_cons]
          refine congrArg₂ _ ?_ ?_
          · rw [posOf, if_neg (by simp [hvalid]), hcn]
          · rw [show n = values.length - (t + 1) from by omega]
            refine ih (t + 1) _ (cn + 1) (by omega) ?_ ?_
            · intro y hy
              rw [hc y hy, cntEqBefore_succ]
              simp [hvalid]
            · rw [hcn, nullsBefore_succ, hvalid]
              simp

/-! ## From write schedules to canonical layouts -/

theorem nodup_getElem?_inj {L : List ℕ} (h : L.Nodup) {a b x : ℕ}
    (ha : L[a]? = some x) (hb : L[b]? = some x) : a = b := by
  obtain ⟨ha1, ha2⟩ := List.getElem?_eq_some_iff.mp ha
  obtain ⟨hb1, hb2⟩ := List.getElem?_eq_some_iff.mp hb
  by_contra hne
  have hpw := List.pairwise_iff_getElem.mp h
  rcases Nat.lt_or_ge a b with hlt | hge
  · exact hpw a b ha1 hb1 hlt (ha2.trans hb2.symm)
  · have hlt : b < a := by omega
    exact hpw b a hb1 ha1 hlt (hb2.trans ha2.symm)

/-- Offset of the non-null block in the final layout. -/
def nnbOf (placement : NullPlacement) (nl : ℕ) : ℕ :=
  match placement with
  | .AtStart => nl
  | .AtEnd => 0

/-- Offset of the null block in the final layout. -/
def nbOf (placement : NullPlacement) (nn : ℕ) : ℕ :=
  match placement with
  | .AtStart => 0
  | .AtEnd => nn

theorem layout_perm_range' (values : List (Option V)) (f : V → ℕ) (R : ℕ)
    (placement : NullPlacement)
    (hR : ∀ i, validAt values i = true → fAt values f i < R) :
    List.Perm (layoutOf placement (targetIdx values f R) (nullIdx values))
      (List.range values.length) := by
  have h1 := targetIdx_perm_nonNullIdx values f R hR
  have h2 := layout_perm_range values placement
  cases placement with
  | AtStart => exact ((List.Perm.refl (nullIdx values)).append h1).trans h2
  | AtEnd => exact (h1.append (List.Perm.refl (nullIdx values))).trans h2

/-- Each row's canonical position indexes the canonical layout at that
row. -/
theorem layout_getElem_posOf (values : List (Option V)) (f : V → ℕ) (R : ℕ)
    (placement : NullPlacement)
    (hR : ∀ i, validAt values i = true → fAt values f i < R)
    (j : ℕ) (hj : j < values.length) :
    (layoutOf placement (targetIdx values f R) (nullIdx values))[
      posOf values f (nnbOf placement (nullIdx values).length)
        (nbOf placement (targetIdx values f R).length) j]? = some j := by
  by_cases hv : validAt values j = true
  · have ht := targetIdx_rank values f R j hj hv hR
    obtain ⟨htlt, -⟩ := List.getElem?_eq_some_iff.mp ht
    cases placement with
    | AtEnd =>
        rw [posOf, if_pos hv, layoutOf, nnbOf]
        rw [List.getElem?_append_left (by omega)]
        simpa using ht
    | AtStart =>
        rw [posOf, if_pos hv, layoutOf, nnbOf]
        rw [List.getElem?_append_right (by omega)]
        rw [show (nullIdx values).length + cntLt values f (fAt values f j) +
            cntEqBefore values f (fAt values f j) j -
            (nullIdx values).length =
          cntLt values f (fAt values f j) +
            cntEqBefore values f (fAt values f j) j from by omega]
        exact ht
  · have hv' : validAt values j = false := by simpa using hv
    have ht := nullIdx_rank values j hj hv'
    obtain ⟨htlt, -⟩ := List.getElem?_eq_some_iff.mp ht
    cases placement with
    | AtEnd =>
        rw [posOf, if_neg (by simp [hv']), layoutOf, nbOf]
        rw [List.getElem?_append_right (by omega)]
        rw [show (targetIdx values f R).length + nullsBefore values j -
            (targetIdx values f R).length = nullsBefore values j from by omega]
        exact ht
    | AtStart =>
        rw [posOf, if_neg (by simp [hv']), layoutOf, nbOf]
        rw [List.getElem?_append_left (by omega)]
        simpa using ht

/-- Applying the canonical write schedule to any buffer of the right
length produces the canonical layout. -/
theorem applyWrites_layout (values : List (Option V)) (f : V → ℕ) (R : ℕ)
    (placement : NullPlacement) (buf : List ℕ)
    (hR : ∀ i, validAt values i = true → fAt values f i < R)
    (hbuf : buf.length = values.length) :
    applyWrites buf ((List.range values.length).map fun j =>
        (posOf values f (nnbOf placement (nullIdx values).length)
          (nbOf placement (targetIdx values f R).length) j, j)) =
      layoutOf placement (targetIdx values f R) (nullIdx values) := by
  have hLperm := layout_perm_range' values f R placement hR
  have hLlen : (layoutOf placement (targetIdx values f R)
      (nullIdx values)).length = values.length := by
    simpa using hLperm.length_eq
  have hLnd : (layoutOf placement (targetIdx values f R)
      (nullIdx values)).Nodup :=
    (List.nodup_range values.length).perm hLperm.symm
  have hKF := layout_getElem_posOf values f R placement hR
  have hfstnd : (((List.range values.length).map fun j =>
      (posOf values f (nnbOf placement (nullIdx values).length)
        (nbOf placement (targetIdx values f R).length) j, j)).map
          Prod.fst).Nodup := by
    rw [List.map_map]
    refine List.Nodup.map_on ?_ (List.nodup_range values.length)
    intro a ha b hb hab
    have ha' := List.mem_range.mp ha
    have hb' := List.mem_range.mp hb
    have h1 := hKF a ha'
    have h2 := hKF b hb'
    simp only [Function.comp] at hab
    rw [hab] at h1
    exact Option.some.inj (h1.symm.trans h2)
  refine List.ext_getElem? fun q => ?_
  by_cases hq : q < values.length
  · have hqL : q < (layoutOf placement (targetIdx values f R)
        (nullIdx values)).length := by omega
    have hLq : (layoutOf placement (targetIdx values f R)
        (nullIdx values))[q]? = some ((layoutOf placement
          (targetIdx values f R) (nullIdx values))[q]) :=
      List.getElem?_eq_getElem hqL
    have hjmem : (layoutOf placement (targetIdx values f R)
        (nullIdx values))[q] ∈ List.range values.length :=
      hLperm.subset (List.getElem_mem hqL)
    have hjN := List.mem_range.mp hjmem
    have hpos : posOf values f (nnbOf placement (nullIdx values).length)
        (nbOf placement (targetIdx values f R).length)
        ((layoutOf placement (targetIdx values f R) (nullIdx values))[q]) =
        q :=
      nodup_getElem?_inj hLnd (hKF _ hjN) hLq
    have hmem : (q, (layoutOf placement (targetIdx values f R)
        (nullIdx values))[q]) ∈
        ((List.range values.length).map fun j =>
          (posOf values f (nnbOf placement (nullIdx values).length)
            (nbOf placement (targetIdx values f R).length) j, j)) := by
      refine List.mem_map.mpr ⟨_, hjmem, ?_⟩
      rw [hpos]
    rw [applyWrites_getElem?_of_mem buf _ q _ hfstnd hmem (by omega), hLq]
  · rw [List.getElem?_eq_none (le_of_not_lt (by
      rw [length_applyWrites]; omega)),
      List.getElem?_eq_none (le_of_not_lt (by omega))]

/-! ## Counter values entering the emit pass -/

theorem vAt_mem_of_valid (values : List (Option V)) (i : ℕ)
    (hv : validAt values i = true) : vAt values i ∈ values := by
  by_cases hi : i < values.length
  · rw [vAt_eq_getElem values i hi]
    exact List.getElem_mem hi
  · exfalso
    rw [validAt, vAt, List.getD_eq_getElem?_getD,
      List.getElem?_eq_none (by omega)] at hv
    simp at hv

theorem cntLt_eq_countP (values : List (Option V)) (f : V → ℕ) (s : ℕ) :
    cntLt values f s =
      values.countP (ArrayCountSorter.keyLtPred f s) := by
  rw [cntLt, countP_eq_range]
  refine List.countP_congr fun j _ => ?_
  cases hv : vAt values j with
  | some x => simp [validAt, fAt, hv, ArrayCountSorter.keyLtPred]
  | none => simp [validAt, fAt, hv, ArrayCountSorter.keyLtPred]

theorem countP_isSome_eq_nonNullIdx (values : List (Option V)) :
    values.countP (fun v => v.isSome) = (nonNullIdx values).length := by
  rw [countP_eq_range, nonNullIdx, ← List.countP_eq_length_filter]
  exact List.countP_congr fun j _ => by rw [validAt]

namespace ArrayCountSorter

/-- Rank map used by `SortInternal`: the bucket for ascending order, the
reversed bucket for descending order. -/
def fOf (cfg : Cfg) (order : SortOrder) (x : ℤ) : ℕ :=
  match order with
  | .Ascending => (x - cfg.min).toNat
  | .Descending => cfg.value_range - 1 - (x - cfg.min).toNat

theorem CountValues_fromZero (cfg : Cfg) (values : List (Option ℤ))
    (shift : ℕ) (i : ℕ) :
    CountValues cfg values shift (fun _ => 0) i =
      values.countP (keyPred (fun x => shift + (x - cfg.min).toNat) i) := by
  rw [CountValues_apply, Nat.zero_add]
  refine List.countP_congr fun v _ => ?_
  cases v <;> simp [keyPred]

/-- After the ascending prefix-sum pass, the counter read for a value is
the number of valid values in strictly smaller buckets. -/
theorem asc_counter (cfg : Cfg) (values : List (Option ℤ))
    (hbound : ∀ x, (some x) ∈ values →
      (x - cfg.min).toNat < cfg.value_range) (x : ℤ)
    (hx : (some x) ∈ values) :
    prefixIncr (CountValues cfg values 1 (fun _ => 0)) cfg.value_range
        (0 + (x - cfg.min).toNat) =
      cntLt values (fOf cfg .Ascending) (fOf cfg .Ascending x) := by
  have hb := hbound x hx
  rw [prefixIncr_apply, if_pos (by omega),
    Finset.sum_congr rfl fun i _ => CountValues_fromZero cfg values 1 i,
    sum_bucket_counts values (fun z => 1 + (z - cfg.min).toNat) _,
    cntLt_eq_countP]
  refine List.countP_congr fun v _ => ?_
  cases v with
  | none => simp [keyLtPred]
  | some z =>
      simp only [keyLtPred, fOf, decide_eq_true_eq]
      omega

/-- After the ascending prefix-sum pass, the top counter is the number of
valid rows. -/
theorem asc_total (cfg : Cfg) (values : List (Option ℤ))
    (hbound : ∀ x, (some x) ∈ values →
      (x - cfg.min).toNat < cfg.value_range) :
    prefixIncr (CountValues cfg values 1 (fun _ => 0)) cfg.value_range
        cfg.value_range =
      (nonNullIdx values).length := by
  rw [prefixIncr_apply, if_pos le_rfl,
    Finset.sum_congr rfl fun i _ => CountValues_fromZero cfg values 1 i,
    sum_bucket_counts values (fun z => 1 + (z - cfg.min).toNat) _,
    ← countP_isSome_eq_nonNullIdx]
  refine List.countP_congr fun v hv => ?_
  cases v with
  | none => simp [keyLtPred]
  | some z =>
      have := hbound z hv
      simp only [keyLtPred, Option.isSome_some, decide_eq_true_eq, iff_true]
      omega

/-- After the descending reverse-cumulative pass, the counter read for a
value is the number of valid values in strictly larger buckets. -/
theorem desc_counter (cfg : Cfg) (values : List (Option ℤ))
    (hbound : ∀ x, (some x) ∈ values →
      (x - cfg.min).toNat < cfg.value_range) (x : ℤ)
    (hx : (some x) ∈ values) :
    suffixIncr (CountValues cfg values 0 (fun _ => 0)) cfg.value_range
        (1 + (x - cfg.min).toNat) =
      cntLt values (fOf cfg .Descending) (fOf cfg .Descending x) := by
  have hb := hbound x hx
  have hkey := (suffixIncr_apply (CountValues cfg values 0 (fun _ => 0))
    cfg.value_range (1 + (x - cfg.min).toNat)).1 (by omega)
  rw [Finset.sum_congr rfl fun i _ => CountValues_fromZero cfg values 0 i,
    sum_bucket_counts values (fun z => 0 + (z - cfg.min).toNat) _,
    Finset.sum_congr rfl fun i _ => CountValues_fromZero cfg values 0 i,
    sum_bucket_counts values (fun z => 0 + (z - cfg.min).toNat) _] at hkey
  have hsplit := countP_disjoint
    (keyLtPred (fun z => 0 + (z - cfg.min).toNat) (1 + (x - cfg.min).toNat))
    (keyGtPred (fun z => (z - cfg.min).toNat) ((x - cfg.min).toNat))
    values
    (by
      intro a _ h
      obtain ⟨h1, h2⟩ := h
      cases a with
      | none => simp [keyLtPred] at h1
      | some z =>
          simp only [keyLtPred, keyGtPred, decide_eq_true_eq] at h1 h2
          omega)
  have htot : values.countP (keyLtPred (fun z => 0 + (z - cfg.min).toNat)
        (1 + (x - cfg.min).toNat)) +
      values.countP (keyGtPred (fun z => (z - cfg.min).toNat)
        ((x - cfg.min).toNat)) =
      values.countP (keyLtPred (fun z => 0 + (z - cfg.min).toNat)
        (cfg.value_range + 1)) := by
    rw [← hsplit]
    refine List.countP_congr fun v hv => ?_
    cases v with
    | none => simp [keyLtPred, keyGtPred]
    | some z =>
        have := hbound z hv
        simp only [keyLtPred, keyGtPred, Bool.or_eq_true, decide_eq_true_eq]
        omega
  have hgt : cntLt values (fOf cfg .Descending) (fOf cfg .Descending x) =
      values.countP (keyGtPred (fun z => (z - cfg.min).toNat)
        ((x - cfg.min).toNat)) := by
    rw [cntLt_eq_countP]
    refine List.countP_congr fun v hv => ?_
    cases v with
    | none => simp [keyLtPred, keyGtPred]
    | some z =>
        have := hbound z hv
        simp only [keyLtPred, keyGtPred, fOf, decide_eq_true_eq]
        omega
  rw [hgt]
  omega

/-- After the descending reverse-cumulative pass, the bottom counter is
the number of valid rows. -/
theorem desc_total (cfg : Cfg) (values : List (Option ℤ))
    (hbound : ∀ x, (some x) ∈ values →
      (x - cfg.min).toNat < cfg.value_range) :
    suffixIncr (CountValues cfg values 0 (fun _ => 0)) cfg.value_range 0 =
      (nonNullIdx values).length := by
  have hkey := (suffixIncr_apply (CountValues cfg values 0 (fun _ => 0))
    cfg.value_range 0).1 (by omega)
  simp only [Finset.range_zero, Finset.sum_empty, Nat.add_zero] at hkey
  rw [Finset.sum_congr rfl fun i _ => CountValues_fromZero cfg values 0 i,
    sum_bucket_counts values (fun z => 0 + (z - cfg.min).toNat) _] at hkey
  rw [hkey, ← countP_isSome_eq_nonNullIdx]
  refine List.countP_congr fun v hv => ?_
  cases v with
  | none => simp [keyLtPred]
  | some z =>
      have := hbound z hv
      simp only [keyLtPred, Option.isSome_some, decide_eq_true_eq, iff_true]
      omega

end ArrayCountSorter

/-! ## The counting sorter produces the canonical layout -/

/-- The `NullPartitionResult` describing the canonical layout: the null
block and non-null block are adjacent and cover the whole buffer. -/
def nprOf (placement : NullPlacement) (nn nl : ℕ) : NullPartitionResult :=
  match placement with
  | .AtStart => ⟨0, nl, nl, nl + nn⟩
  | .AtEnd => ⟨nn, nn + nl, 0, nn⟩

theorem cntEqBefore_zero (values : List (Option V)) (f : V → ℕ) (s : ℕ) :
    cntEqBefore values f s 0 = 0 := rfl

/-- `ArrayCountSorter::SortInternal`, invoked as the kernels invoke it
(identity index buffer, offset `0`), produces exactly the canonical
stable bucketed layout and the canonical partition boundaries, whenever
every valid value falls inside the configured bucket range. -/
theorem SortInternal_eq_layout (cfg : ArrayCountSorter.Cfg)
    (values : List (Option ℤ)) (options : ArraySortOptions)
    (hbound : ∀ x, (some x) ∈ values →
      (x - cfg.min).toNat < cfg.value_range) :
    ArrayCountSorter.SortInternal cfg values (List.range values.length) 0
        options =
      (layoutOf options.null_placement
        (targetIdx values (ArrayCountSorter.fOf cfg options.order)
          cfg.value_range)
        (nullIdx values),
       nprOf options.null_placement (nonNullIdx values).length
         (nullIdx values).length) := by
  obtain ⟨order, placement⟩ := options
  have hlen := length_nonNull_add_null values
  have hR : ∀ i, validAt values i = true →
      fAt values (ArrayCountSorter.fOf cfg order) i < cfg.value_range := by
    intro i hv
    have hv' : (vAt values i).isSome = true := by rw [← validAt]; exact hv
    obtain ⟨x, hx⟩ := Option.isSome_iff_exists.mp hv'
    have hmem : (some x) ∈ values := by
      rw [← hx]; exact vAt_mem_of_valid values i hv
    have hb := hbound x hmem
    rw [fAt, hx]
    cases order <;> simp only [ArrayCountSorter.fOf] <;> omega
  have htlen : (targetIdx values (ArrayCountSorter.fOf cfg order)
      cfg.value_range).length = (nonNullIdx values).length :=
    (targetIdx_perm_nonNullIdx values _ _ hR).length_eq
  cases order with
  | Ascending =>
      have htot := ArrayCountSorter.asc_total cfg values hbound
      have hκ : ∀ x y : ℤ, (some x) ∈ values → (some y) ∈ values →
          ((fun z => 0 + (z - cfg.min).toNat) x =
            (fun z => 0 + (z - cfg.min).toNat) y ↔
          ArrayCountSorter.fOf cfg .Ascending x =
            ArrayCountSorter.fOf cfg .Ascending y) := by
        intro x y _ _
        simp only [ArrayCountSorter.fOf]
        omega
      have hc : ∀ x : ℤ, (some x) ∈ values →
          ArrayCountSorter.prefixIncr
            (ArrayCountSorter.CountValues cfg values 1 (fun _ => 0))
            cfg.value_range ((fun z => 0 + (z - cfg.min).toNat) x) =
          cntLt values (ArrayCountSorter.fOf cfg .Ascending)
            (ArrayCountSorter.fOf cfg .Ascending x) +
            cntEqBefore values (ArrayCountSorter.fOf cfg .Ascending)
              (ArrayCountSorter.fOf cfg .Ascending x) 0 := by
        intro x hx
        rw [cntEqBefore_zero, Nat.add_zero]
        exact ArrayCountSorter.asc_counter cfg values hbound x hx
      cases placement with
      | AtEnd =>
          have hspec := intSched_spec values
            (fun z => 0 + (z - cfg.min).toNat)
            (ArrayCountSorter.fOf cfg .Ascending) 0
            (nonNullIdx values).length hκ values.length 0
            (ArrayCountSorter.prefixIncr
              (ArrayCountSorter.CountValues cfg values 1 (fun _ => 0))
              cfg.value_range) 0 (by omega) hc rfl
          rw [List.drop_zero, Nat.sub_zero, ← List.range_eq_range'] at hspec
          simp only [ArrayCountSorter.SortInternal, List.length_range, htot,
            NullPartitionResult.NullsAtEnd, Prod.mk.injEq]
          constructor
          · rw [EmitIndices_eq_applyWrites, hspec, ← htlen]
            exact applyWrites_layout values
              (ArrayCountSorter.fOf cfg .Ascending) cfg.value_range .AtEnd
              (List.range values.length) hR (by simp)
          · simp only [nprOf, NullPartitionResult.mk.injEq, true_and,
              and_true]
            omega
      | AtStart =>
          have hspec := intSched_spec values
            (fun z => 0 + (z - cfg.min).toNat)
            (ArrayCountSorter.fOf cfg .Ascending) (nullIdx values).length 0
            hκ values.length 0
            (ArrayCountSorter.prefixIncr
              (ArrayCountSorter.CountValues cfg values 1 (fun _ => 0))
              cfg.value_range) 0 (by omega) hc rfl
          rw [List.drop_zero, Nat.sub_zero, ← List.range_eq_range'] at hspec
          simp only [ArrayCountSorter.SortInternal, List.length_range, htot,
            NullPartitionResult.NullsAtStart, Prod.mk.injEq]
          rw [show values.length - (nonNullIdx values).length =
            (nullIdx values).length from by omega]
          constructor
          · rw [EmitIndices_eq_applyWrites, hspec]
            exact applyWrites_layout values
              (ArrayCountSorter.fOf cfg .Ascending) cfg.value_range .AtStart
              (List.range values.length) hR (by simp)
          · simp only [nprOf, NullPartitionResult.mk.injEq, true_and,
              and_true]
            omega
  | Descending =>
      have htot := ArrayCountSorter.desc_total cfg values hbound
      have hκ : ∀ x y : ℤ, (some x) ∈ values → (some y) ∈ values →
          ((fun z => 1 + (z - cfg.min).toNat) x =
            (fun z => 1 + (z - cfg.min).toNat) y ↔
          ArrayCountSorter.fOf cfg .Descending x =
            ArrayCountSorter.fOf cfg .Descending y) := by
        intro x y hx hy
        have hbx := hbound x hx
        have hby := hbound y hy
        simp only [ArrayCountSorter.fOf]
        omega
      have hc : ∀ x : ℤ, (some x) ∈ values →
          ArrayCountSorter.suffixIncr
            (ArrayCountSorter.CountValues cfg values 0 (fun _ => 0))
            cfg.value_range ((fun z => 1 + (z - cfg.min).toNat) x) =
          cntLt values (ArrayCountSorter.fOf cfg .Descending)
            (ArrayCountSorter.fOf cfg .Descending x) +
            cntEqBefore values (ArrayCountSorter.fOf cfg .Descending)
              (ArrayCountSorter.fOf cfg .Descending x) 0 := by
        intro x hx
        rw [cntEqBefore_zero, Nat.add_zero]
        exact ArrayCountSorter.desc_counter cfg values hbound x hx
      cases placement with
      | AtEnd =>
          have hspec := intSched_spec values
            (fun z => 1 + (z - cfg.min).toNat)
            (ArrayCountSorter.fOf cfg .Descending) 0
            (nonNullIdx values).length hκ values.length 0
            (ArrayCountSorter.suffixIncr
              (ArrayCountSorter.CountValues cfg values 0 (fun _ => 0))
              cfg.value_range) 0 (by omega) hc rfl
          rw [List.drop_zero, Nat.sub_zero, ← List.range_eq_range'] at hspec
          simp only [ArrayCountSorter.SortInternal, List.length_range, htot,
            NullPartitionResult.NullsAtEnd, Prod.mk.injEq]
          constructor
          · rw [EmitIndices_eq_applyWrites, hspec, ← htlen]
            exact applyWrites_layout values
              (ArrayCountSorter.fOf cfg .Descending) cfg.value_range .AtEnd
              (List.range values.length) hR (by simp)
          · simp only [nprOf, NullPartitionResult.mk.injEq, true_and,
              and_true]
            omega
      | AtStart =>
          have hspec := intSched_spec values
            (fun z => 1 + (z - cfg.min).toNat)
            (ArrayCountSorter.fOf cfg .Descending) (nullIdx values).length 0
            hκ values.length 0
            (ArrayCountSorter.suffixIncr
              (ArrayCountSorter.CountValues cfg values 0 (fun _ => 0))
              cfg.value_range) 0 (by omega) hc rfl
          rw [List.drop_zero, Nat.sub_zero, ← List.range_eq_range'] at hspec
          simp only [ArrayCountSorter.SortInternal, List.length_range, htot,
            NullPartitionResult.NullsAtStart, Prod.mk.injEq]
          rw [show values.length - (nonNullIdx values).length =
            (nullIdx values).length from by omega]
          constructor
          · rw [EmitIndices_eq_applyWrites, hspec]
            exact applyWrites_layout values
              (ArrayCountSorter.fOf cfg .Descending) cfg.value_range .AtStart
              (List.range values.length) hR (by simp)
          · simp only [nprOf, NullPartitionResult.mk.injEq, true_and,
              and_true]
            omega

/-! ## The comparison sorter -/

theorem optValLT_le_trans [LinearOrder α] :
    ∀ x y z : Option α, ¬ optValLT y x → ¬ optValLT z y → ¬ optValLT z x
  | _, _, none => fun _ _ => by simp [optValLT]
  | none, some _, some _ => fun h1 _ => absurd trivial h1
  | none, none, some _ => fun _ h2 => absurd trivial h2
  | some _, none, some _ => fun _ h2 => absurd trivial h2
  | some a, some b, some c => fun h1 h2 => by
      simp only [optValLT] at *
      exact not_lt.mpr (le_trans (not_lt.mp h1) (not_lt.mp h2))

theorem optValLT_asymm [LinearOrder α] :
    ∀ x y : Option α, ¬ optValLT y x ∨ ¬ optValLT x y
  | none, _ => Or.inr (by simp [optValLT])
  | some _, none => Or.inl (by simp [optValLT])
  | some a, some b => by
      rcases le_or_lt a b with h | h
      · exact Or.inl (by simp only [optValLT]; exact not_lt.mpr h)
      · exact Or.inr (by simp only [optValLT]; exact not_lt.mpr (le_of_lt h))

theorem optValLT_both_not_iff [LinearOrder α] (x y : Option α) :
    (¬ optValLT y x ∧ ¬ optValLT x y) ↔ x = y := by
  cases x <;> cases y <;>
    simp [optValLT, not_lt, le_antisymm_iff, and_comm]

/-- The comparator the comparison sorter hands to `std::stable_sort`. -/
def cmpOf [LinearOrder α] (values : List (Option α)) (order : SortOrder) :
    ℕ → ℕ → Bool :=
  match order with
  | .Ascending => fun left right =>
      decide (optValLT (vAt values left) (vAt values right))
  | .Descending => fun left right =>
      decide (optValLT (vAt values right) (vAt values left))

theorem cmpOf_le_trans [LinearOrder α] (values : List (Option α))
    (order : SortOrder) (a b c : ℕ) :
    (!cmpOf values order b a) = true → (!cmpOf values order c b) = true →
      (!cmpOf values order c a) = true := by
  cases order <;>
    · simp only [cmpOf, Bool.not_eq_eq_eq_not, Bool.not_true,
        decide_eq_false_iff_not]
      intro h1 h2
      first
      | exact optValLT_le_trans _ _ _ h1 h2
      | exact optValLT_le_trans _ _ _ h2 h1

theorem cmpOf_le_total [LinearOrder α] (values : List (Option α))
    (order : SortOrder) (a b : ℕ) :
    ((!cmpOf values order b a) || (!cmpOf values order a b)) = true := by
  cases order <;>
    · simp only [cmpOf, Bool.or_eq_true, Bool.not_eq_eq_eq_not, Bool.not_true,
        decide_eq_false_iff_not]
      exact optValLT_asymm _ _

theorem cmpOf_both_iff [LinearOrder α] (values : List (Option α))
    (order : SortOrder) (a b : ℕ) :
    ((!cmpOf values order b a) = true ∧ (!cmpOf values order a b) = true) ↔
      vAt values a = vAt values b := by
  cases order <;>
    simp only [cmpOf, Bool.not_eq_eq_eq_not, Bool.not_true,
      decide_eq_false_iff_not]
  · exact optValLT_both_not_iff _ _
  · rw [and_comm]
    exact optValLT_both_not_iff _ _

/-- Stability of the merge-sort model: on a strictly increasing list of
indices, ties (under the comparator) keep their original index order. -/
theorem stableSortModel_stable_pairwise (xs : List ℕ) (le : ℕ → ℕ → Bool)
    (htrans : ∀ a b c, le a b = true → le b c = true → le a c = true)
    (htotal : ∀ a b, (le a b || le b a) = true)
    (hxs : xs.Pairwise (· < ·)) :
    (xs.mergeSort le).Pairwise
      fun a b => (le a b = true ∧ le b a = true) → a < b := by
  have henum := @List.mergeSort_enum ℕ le xs
  rw [← henum, List.pairwise_map]
  have hs : (List.mergeSort xs.enum (List.enumLE le)).Pairwise
      (fun p q => List.enumLE le p q = true) :=
    List.sorted_mergeSort
      (fun p q r => List.enumLE_trans htrans p q r)
      (fun p q => List.enumLE_total htotal p q) xs.enum
  have hnd : (List.mergeSort xs.enum (List.enumLE le)).Nodup := by
    have h1 : xs.enum.Nodup := by
      have h2 : (xs.enum.map Prod.fst).Nodup := by
        rw [List.enum_map_fst]
        exact List.nodup_range _
      exact h2.of_map
    exact h1.perm (List.mergeSort_perm _ _).symm
  have hmem : ∀ p : ℕ × ℕ, p ∈ List.mergeSort xs.enum (List.enumLE le) →
      xs[p.1]? = some p.2 := by
    intro p hp
    have := List.mem_mergeSort.mp hp
    exact List.mk_mem_enum_iff_getElem?.mp (by
      obtain ⟨p1, p2⟩ := p
      exact this)
  refine ((hs.and hnd).imp_of_mem ?_)
  rintro ⟨p1, p2⟩ ⟨q1, q2⟩ hp hq hpq hboth
  obtain ⟨hle, hne⟩ := hpq
  simp only at hboth
  have hgp : xs[p1]? = some p2 := hmem _ hp
  have hgq : xs[q1]? = some q2 := hmem _ hq
  have h1 : p1 ≤ q1 := by
    simp only [List.enumLE] at hle
    rw [hboth.1, hboth.2] at hle
    simpa using hle
  have h2 : p1 ≠ q1 := by
    intro heq
    subst heq
    rw [hgp] at hgq
    exact hne (by rw [Option.some.inj hgq])
  have h3 : p1 < q1 := by omega
  obtain ⟨hp1, hp2⟩ := List.getElem?_eq_some_iff.mp hgp
  obtain ⟨hq1, hq2⟩ := List.getElem?_eq_some_iff.mp hgq
  have h4 := List.pairwise_iff_getElem.mp hxs p1 q1 hp1 hq1 h3
  rw [hp2, hq2] at h4
  exact h4

/-- `ArrayCompareSorter`, invoked as the kernels invoke it (identity index
buffer, offset `0`): null-partition, then stable-sort the non-null block
in place. -/
theorem ArrayCompareSorter_eq [LinearOrder α] (values : List (Option α))
    (options : ArraySortOptions) :
    ArrayCompareSorter values (List.range values.length) 0 options =
      (layoutOf options.null_placement
        (stableSortModel (cmpOf values options.order) (nonNullIdx values))
        (nullIdx values),
       nprOf options.null_placement (nonNullIdx values).length
         (nullIdx values).length) := by
  obtain ⟨order, placement⟩ := options
  have hlen := length_nonNull_add_null values
  have hfilter1 : (List.range values.length).filter
      (fun i => validAt values (i - 0)) = nonNullIdx values := by
    rw [nonNullIdx]
    exact List.filter_congr fun i _ => by rw [Nat.sub_zero]
  have hfilter2 : (List.range values.length).filter
      (fun i => !validAt values (i - 0)) = nullIdx values := by
    rw [nullIdx]
    exact List.filter_congr fun i _ => by rw [Nat.sub_zero]
  have hcmp : (match order with
      | SortOrder.Ascending => fun left right =>
          decide (optValLT (vAt values (left - 0)) (vAt values (right - 0)))
      | SortOrder.Descending => fun left right =>
          decide (optValLT (vAt values (right - 0)) (vAt values (left - 0)))) =
      cmpOf values order := by
    cases order <;> simp only [cmpOf, Nat.sub_zero]
  cases placement with
  | AtEnd =>
      simp only [ArrayCompareSorter, PartitionNullsStable, hfilter1, hfilter2,
        NullPartitionResult.NullsAtEnd, List.length_range, hcmp,
        Prod.mk.injEq]
      constructor
      · rw [List.take_zero, Nat.sub_zero, List.drop_zero,
          List.take_left' rfl, List.drop_left' rfl, List.nil_append, layoutOf]
      · simp only [nprOf, NullPartitionResult.mk.injEq, true_and, and_true]
        omega
  | AtStart =>
      simp only [ArrayCompareSorter, PartitionNullsStable, hfilter1, hfilter2,
        NullPartitionResult.NullsAtStart, List.length_range, hcmp,
        Prod.mk.injEq]
      constructor
      · rw [List.take_left' rfl, List.drop_left' rfl,
          List.take_of_length_le (by omega),
          List.drop_eq_nil_of_le (by simp; omega), List.append_nil, layoutOf]
      · simp only [nprOf, NullPartitionResult.mk.injEq, true_and, and_true]
        omega

/-! ## Claim-level predicates -/

/-- Stability of an output permutation: rows holding equal logical values
(including null ones) appear in increasing original-index order. -/
def StableOut (values : List (Option γ)) (out : List ℕ) : Prop :=
  out.Pairwise fun i j => vAt values i = vAt values j → i < j

/-- The row ordering relation realized by a sorted output under the given
options: null rows are laid out at the configured end, non-null rows obey
the configured value order. -/
def rowLE [LinearOrder α] (options : ArraySortOptions) :
    Option α → Option α → Prop
  | none, none => True
  | none, some _ => options.null_placement = .AtStart
  | some _, none => options.null_placement = .AtEnd
  | some a, some b =>
      match options.order with
      | .Ascending => a ≤ b
      | .Descending => b ≤ a

/-- Reading the array through the output permutation gives a sequence
ordered by `rowLE`. -/
def SortedOut [LinearOrder α] (values : List (Option α))
    (options : ArraySortOptions) (out : List ℕ) : Prop :=
  out.Pairwise fun i j => rowLE options (vAt values i) (vAt values j)

theorem mem_nullIdx {values : List (Option V)} {j : ℕ} :
    j ∈ nullIdx values ↔ j < values.length ∧ validAt values j = false := by
  simp [nullIdx, List.mem_filter]

theorem mem_nonNullIdx {values : List (Option V)} {j : ℕ} :
    j ∈ nonNullIdx values ↔ j < values.length ∧ validAt values j = true := by
  simp [nonNullIdx, List.mem_filter]

theorem vAt_ne_of_valid_ne {values : List (Option V)} {i j : ℕ}
    (hi : validAt values i = true) (hj : validAt values j = false) :
    vAt values i ≠ vAt values j := by
  intro h
  rw [validAt, h, ← validAt, hj] at hi
  cases hi

/-- A layout whose non-null block is a stable arrangement of the valid
rows is stable overall. -/
theorem StableOut_layout (values : List (Option V))
    (placement : NullPlacement) (nn : List ℕ)
    (hperm : List.Perm nn (nonNullIdx values))
    (hst : nn.Pairwise fun i j => vAt values i = vAt values j → i < j) :
    StableOut values (layoutOf placement nn (nullIdx values)) := by
  have hnullpw : (nullIdx values).Pairwise
      (fun i j => vAt values i = vAt values j → i < j) := by
    refine List.Pairwise.imp ?_
      ((List.pairwise_lt_range values.length).filter _)
    intro a b h _
    exact h
  have hcross : ∀ i ∈ nn, ∀ j ∈ nullIdx values,
      vAt values i ≠ vAt values j := by
    intro i hi j hj
    exact vAt_ne_of_valid_ne (mem_nonNullIdx.mp (hperm.subset hi)).2
      (mem_nullIdx.mp hj).2
  cases placement with
  | AtEnd =>
      rw [StableOut, layoutOf, List.pairwise_append]
      exact ⟨hst, hnullpw, fun i hi j hj h => absurd h (hcross i hi j hj)⟩
  | AtStart =>
      rw [StableOut, layoutOf, List.pairwise_append]
      exact ⟨hnullpw, hst, fun j hj i hi h =>
        absurd h.symm (hcross i hi j hj)⟩

/-- A layout whose non-null block is ordered by `rowLE` is ordered by
`rowLE` overall, provided the null block sits at the configured end. -/
theorem SortedOut_layout [LinearOrder α] (values : List (Option α))
    (options : ArraySortOptions) (nn : List ℕ)
    (hperm : List.Perm nn (nonNullIdx values))
    (hsort : nn.Pairwise fun i j =>
      rowLE options (vAt values i) (vAt values j)) :
    SortedOut values options
      (layoutOf options.null_placement nn (nullIdx values)) := by
  have hnullval : ∀ j ∈ nullIdx values, vAt values j = none := by
    intro j hj
    have := (mem_nullIdx.mp hj).2
    rw [validAt] at this
    exact Option.not_isSome_iff_eq_none.mp (by simp [this])
  have hnnval : ∀ i ∈ nn, ∃ a, vAt values i = some a := by
    intro i hi
    have := (mem_nonNullIdx.mp (hperm.subset hi)).2
    rw [validAt] at this
    exact Option.isSome_iff_exists.mp this
  have hnullpw : (nullIdx values).Pairwise
      (fun i j => rowLE options (vAt values i) (vAt values j)) := by
    refine List.Pairwise.imp_of_mem ?_
      ((List.pairwise_lt_range values.length).filter _)
    intro i j hi hj _
    rw [hnullval i hi, hnullval j hj]
    exact trivial
  cases hpl : options.null_placement with
  | AtEnd =>
      rw [SortedOut, layoutOf, List.pairwise_append]
      refine ⟨hsort, hnullpw, ?_⟩
      intro i hi j hj
      obtain ⟨a, ha⟩ := hnnval i hi
      rw [ha, hnullval j hj]
      exact hpl
  | AtStart =>
      rw [SortedOut, layoutOf, List.pairwise_append]
      refine ⟨hnullpw, hsort, ?_⟩
      intro j hj i hi
      obtain ⟨a, ha⟩ := hnnval i hi
      rw [ha, hnullval j hj]
      exact hpl

/-! ## Ordering facts for the two non-null block arrangements -/

theorem compare_block_stable [LinearOrder α] (values : List (Option α))
    (order : SortOrder) :
    (stableSortModel (cmpOf values order) (nonNullIdx values)).Pairwise
      fun i j => vAt values i = vAt values j → i < j := by
  have h := stableSortModel_stable_pairwise (nonNullIdx values)
    (fun a b => !cmpOf values order b a)
    (cmpOf_le_trans values order)
    (cmpOf_le_total values order)
    ((List.pairwise_lt_range values.length).filter _)
  rw [stableSortModel]
  refine h.imp ?_
  intro a b hab hveq
  exact hab ((cmpOf_both_iff values order a b).mpr hveq)

theorem compare_block_le_pairwise [LinearOrder α] (values : List (Option α))
    (order : SortOrder) :
    (stableSortModel (cmpOf values order) (nonNullIdx values)).Pairwise
      fun i j => (!cmpOf values order j i) = true :=
  List.sorted_mergeSort (cmpOf_le_trans values order)
    (cmpOf_le_total values order) (nonNullIdx values)

theorem compare_block_sorted [LinearOrder α] (values : List (Option α))
    (options : ArraySortOptions) :
    (stableSortModel (cmpOf values options.order) (nonNullIdx values)).Pairwise
      fun i j => rowLE options (vAt values i) (vAt values j) := by
  have hperm : List.Perm
      (stableSortModel (cmpOf values options.order) (nonNullIdx values))
      (nonNullIdx values) := List.mergeSort_perm _ _
  refine (compare_block_le_pairwise values options.order).imp_of_mem ?_
  intro i j hi hj hle
  have hvi := (mem_nonNullIdx.mp (hperm.subset hi)).2
  have hvj := (mem_nonNullIdx.mp (hperm.subset hj)).2
  obtain ⟨a, ha⟩ := Option.isSome_iff_exists.mp (by rw [validAt] at hvi; exact hvi)
  obtain ⟨b, hb⟩ := Option.isSome_iff_exists.mp (by rw [validAt] at hvj; exact hvj)
  rw [ha, hb]
  cases horder : options.order with
  | Ascending =>
      rw [horder] at hle
      simp only [cmpOf, Bool.not_eq_eq_eq_not, Bool.not_true,
        decide_eq_false_iff_not, ha, hb, optValLT] at hle
      simp only [rowLE, horder]
      exact not_lt.mp hle
  | Descending =>
      rw [horder] at hle
      simp only [cmpOf, Bool.not_eq_eq_eq_not, Bool.not_true,
        decide_eq_false_iff_not, ha, hb, optValLT] at hle
      simp only [rowLE, horder]
      exact not_lt.mp hle

theorem target_block_stable (values : List (Option V)) (f : V → ℕ) (R : ℕ) :
    (targetIdx values f R).Pairwise
      fun i j => vAt values i = vAt values j → i < j := by
  refine (targetIdx_pairwise values f R).imp ?_
  intro i j hS hveq
  have hf : fAt values f i = fAt values f j := by rw [fAt, fAt, hveq]
  rcases hS with h | h
  · omega
  · exact h.2

theorem mem_targetIdx_valid {values : List (Option V)} {f : V → ℕ} {R j : ℕ}
    (hj : j ∈ targetIdx values f R) :
    j < values.length ∧ validAt values j = true := by
  rw [targetIdx, List.mem_flatMap] at hj
  obtain ⟨s, -, hs⟩ := hj
  have := mem_segIdx.mp hs
  exact ⟨this.1, this.2.1⟩

theorem target_block_sorted_int (cfg : ArrayCountSorter.Cfg)
    (values : List (Option ℤ)) (options : ArraySortOptions)
    (hbound2 : ∀ x, (some x) ∈ values →
      cfg.min ≤ x ∧ (x - cfg.min).toNat < cfg.value_range) :
    (targetIdx values (ArrayCountSorter.fOf cfg options.order)
        cfg.value_range).Pairwise
      fun i j => rowLE options (vAt values i) (vAt values j) := by
  refine (targetIdx_pairwise values _ _).imp_of_mem ?_
  intro i j hi hj hS
  obtain ⟨hiN, hvi⟩ := mem_targetIdx_valid hi
  obtain ⟨hjN, hvj⟩ := mem_targetIdx_valid hj
  obtain ⟨a, ha⟩ := Option.isSome_iff_exists.mp (by rw [validAt] at hvi; exact hvi)
  obtain ⟨b, hb⟩ := Option.isSome_iff_exists.mp (by rw [validAt] at hvj; exact hvj)
  have hma : (some a) ∈ values := by rw [← ha]; exact vAt_mem_of_valid values i hvi
  have hmb : (some b) ∈ values := by rw [← hb]; exact vAt_mem_of_valid values j hvj
  have hba := hbound2 a hma
  have hbb := hbound2 b hmb
  rw [fAt, fAt, ha, hb] at hS
  rw [ha, hb]
  cases horder : options.order with
  | Ascending =>
      rw [horder] at hS
      simp only [ArrayCountSorter.fOf] at hS
      simp only [rowLE, horder]
      omega
  | Descending =>
      rw [horder] at hS
      simp only [ArrayCountSorter.fOf] at hS
      simp only [rowLE, horder]
      omega

/-- The sorted non-null block of the comparison sorter coincides with the
canonical counting-sort arrangement, whenever the configured bucket range
covers the values.  This is the heart of the counting-vs-comparison
agreement. -/
theorem compare_block_eq_target_int (cfg : ArrayCountSorter.Cfg)
    (values : List (Option ℤ)) (order : SortOrder)
    (hbound2 : ∀ x, (some x) ∈ values →
      cfg.min ≤ x ∧ (x - cfg.min).toNat < cfg.value_range) :
    stableSortModel (cmpOf values order) (nonNullIdx values) =
      targetIdx values (ArrayCountSorter.fOf cfg order) cfg.value_range := by
  have hR : ∀ i, validAt values i = true →
      fAt values (ArrayCountSorter.fOf cfg order) i < cfg.value_range := by
    intro i hv
    obtain ⟨x, hx⟩ := Option.isSome_iff_exists.mp (by rw [validAt] at hv; exact hv)
    have hmem : (some x) ∈ values := by
      rw [← hx]; exact vAt_mem_of_valid values i hv
    have hb := hbound2 x hmem
    rw [fAt, hx]
    cases order <;> simp only [ArrayCountSorter.fOf] <;> omega
  set f := ArrayCountSorter.fOf cfg order with hf
  refine @List.Perm.eq_of_sorted ℕ
    (fun i j => fAt values f i < fAt values f j ∨
      (fAt values f i = fAt values f j ∧ i ≤ j)) _ _ ?_ ?_ ?_ ?_
  · intro a b _ _ h1 h2
    omega
  · -- the merge-sorted block is lexicographically ordered by (rank, index)
    have hperm : List.Perm
        (stableSortModel (cmpOf values order) (nonNullIdx values))
        (nonNullIdx values) := List.mergeSort_perm _ _
    refine ((compare_block_le_pairwise values order).and
      (compare_block_stable values order)).imp_of_mem ?_
    intro i j hi hj hpair
    obtain ⟨hle, hst⟩ := hpair
    have hvi := (mem_nonNullIdx.mp (hperm.subset hi)).2
    have hvj := (mem_nonNullIdx.mp (hperm.subset hj)).2
    obtain ⟨a, ha⟩ := Option.isSome_iff_exists.mp (by rw [validAt] at hvi; exact hvi)
    obtain ⟨b, hb⟩ := Option.isSome_iff_exists.mp (by rw [validAt] at hvj; exact hvj)
    have hma : (some a) ∈ values := by
      rw [← ha]; exact vAt_mem_of_valid values i hvi
    have hmb : (some b) ∈ values := by
      rw [← hb]; exact vAt_mem_of_valid values j hvj
    have hba := hbound2 a hma
    have hbb := hbound2 b hmb
    have hstv : a = b → i < j := by
      intro hab
      exact hst (by rw [ha, hb, hab])
    rw [hf, fAt, fAt, ha, hb]
    cases order with
    | Ascending =>
        simp only [cmpOf, Bool.not_eq_eq_eq_not, Bool.not_true,
          decide_eq_false_iff_not, ha, hb, optValLT] at hle
        have hab : a ≤ b := not_lt.mp hle
        simp only [ArrayCountSorter.fOf]
        by_cases heq : (a - cfg.min).toNat = (b - cfg.min).toNat
        · have : a = b := by omega
          exact Or.inr ⟨heq, le_of_lt (hstv this)⟩
        · exact Or.inl (by omega)
    | Descending =>
        simp only [cmpOf, Bool.not_eq_eq_eq_not, Bool.not_true,
          decide_eq_false_iff_not, ha, hb, optValLT] at hle
        have hab : b ≤ a := not_lt.mp hle
        simp only [ArrayCountSorter.fOf]
        by_cases heq : (a - cfg.min).toNat = (b - cfg.min).toNat
        · have : a = b := by omega
          exact Or.inr ⟨by rw [heq], le_of_lt (hstv this)⟩
        · exact Or.inl (by omega)
  · refine (targetIdx_pairwise values f cfg.value_range).imp ?_
    intro i j h
    rcases h with h | h
    · exact Or.inl h
    · exact Or.inr ⟨h.1, le_of_lt h.2⟩
  · exact (List.mergeSort_perm _ _).trans
      (targetIdx_perm_nonNullIdx values f cfg.value_range hR).symm

/-! ## The boolean counting sorter -/

/-- Output rank of a boolean value: ascending sorts false before true,
descending the reverse. -/
def fBool (order : SortOrder) (v : Bool) : ℕ :=
  match order with
  | .Ascending => if v then 1 else 0
  | .Descending => if v then 0 else 1

/-- Write schedule of the boolean emit pass (null rows use counter slot
`2`). -/
def boolSched (nnb nb : ℕ) :
    (ℕ → ℕ) → ℕ → List (Option Bool) → List (ℕ × ℕ)
  | _, _, [] => []
  | c, idx, some v :: rest =>
      (nnb + c (if v then 1 else 0), idx) ::
        boolSched nnb nb (ArrayCountSorter.bump c (if v then 1 else 0))
          (idx + 1) rest
  | c, idx, none :: rest =>
      (nb + c 2, idx) ::
        boolSched nnb nb (ArrayCountSorter.bump c 2) (idx + 1) rest

theorem bool_fold_eq_applyWrites (nnb nb : ℕ) :
    ∀ (values : List (Option Bool)) (buf : List ℕ) (c : ℕ → ℕ) (idx : ℕ),
      (ArrayCountSorter.visitRawValues values (buf, c, idx)
        (fun st v =>
          (st.1.set (nnb + st.2.1 (if v then 1 else 0)) st.2.2,
            ArrayCountSorter.bump st.2.1 (if v then 1 else 0), st.2.2 + 1))
        (fun st =>
          (st.1.set (nb + st.2.1 2) st.2.2, ArrayCountSorter.bump st.2.1 2,
            st.2.2 + 1))).1 =
      applyWrites buf (boolSched nnb nb c idx values) := by
  intro values
  induction values with
  | nil => intro buf c idx; rfl
  | cons v rest ih =>
      intro buf c idx
      cases v with
      | some x =>
          rw [ArrayCountSorter.visitRawValues_cons_some]
          exact ih _ _ _
      | none =>
          rw [ArrayCountSorter.visitRawValues_cons_none]
          exact ih _ _ _

/-- The boolean write schedule is the integer write schedule with the
null counter kept in slot `2`. -/
theorem boolSched_eq_intSched (nnb nb : ℕ) :
    ∀ (l : List (Option Bool)) (c₁ c₂ : ℕ → ℕ) (idx : ℕ),
      (∀ k, k ≠ 2 → c₁ k = c₂ k) →
      boolSched nnb nb c₁ idx l =
        intSched nnb nb (fun v => if v then 1 else 0) c₂ idx (c₁ 2) l := by
  intro l
  induction l with
  | nil => intro c₁ c₂ idx h; rfl
  | cons v rest ih =>
      intro c₁ c₂ idx h
      cases v with
      | some x =>
          rw [boolSched, intSched]
          have hkey : (if x then 1 else 0) ≠ 2 := by cases x <;> simp
          refine congrArg₂ _ (by rw [h _ hkey]) ?_
          have hagree : ∀ k, k ≠ 2 →
              (ArrayCountSorter.bump c₁ (if x then 1 else 0)) k =
              (ArrayCountSorter.bump c₂ (if x then 1 else 0)) k := by
            intro k hk
            rw [ArrayCountSorter.bump_apply, ArrayCountSorter.bump_apply]
            by_cases hkk : k = (if x then 1 else 0)
            · rw [if_pos hkk, if_pos hkk, h _ hkey]
            · rw [if_neg hkk, if_neg hkk, h _ hk]
          have hbump2 : (ArrayCountSorter.bump c₁ (if x then 1 else 0)) 2 =
              c₁ 2 := by
            rw [ArrayCountSorter.bump_apply, if_neg (by cases x <;> simp)]
          have hih := ih (ArrayCountSorter.bump c₁ (if x then 1 else 0))
            (ArrayCountSorter.bump c₂ (if x then 1 else 0)) (idx + 1) hagree
          rw [hbump2] at hih
          exact hih
      | none =>
          rw [boolSched, intSched]
          refine congrArg₂ _ rfl ?_
          have hagree : ∀ k, k ≠ 2 →
              (ArrayCountSorter.bump c₁ 2) k = c₂ k := by
            intro k hk
            rw [ArrayCountSorter.bump_apply, if_neg hk]
            exact h _ hk
          have hbump2 : (ArrayCountSorter.bump c₁ 2) 2 = c₁ 2 + 1 := by
            rw [ArrayCountSorter.bump_apply, if_pos rfl]
          have hih := ih (ArrayCountSorter.bump c₁ 2) c₂ (idx + 1) hagree
          rw [hbump2] at hih
          exact hih

theorem countP_isNone_eq_nullIdx (values : List (Option V)) :
    values.countP (fun v => v.isNone) = (nullIdx values).length := by
  rw [countP_eq_range, nullIdx, ← List.countP_eq_length_filter]
  refine List.countP_congr fun j _ => ?_
  rw [validAt]
  cases vAt values j <;> simp

theorem bool_count_split (values : List (Option Bool)) :
    values.countP (· == some true) + values.countP (· == some false) +
      values.countP (·.isNone) = values.length := by
  induction values with
  | nil => simp
  | cons v rest ih =>
      rcases v with - | b
      · simp only [List.countP_cons, List.length_cons]
        simp only [show ((none : Option Bool) == some true) = false from rfl,
          show ((none : Option Bool) == some false) = false from rfl]
        simp
        omega
      · cases b <;>
          · simp only [List.countP_cons, List.length_cons]
            simp
            omega

theorem cntLt_fBool_zero (values : List (Option Bool)) (order : SortOrder) :
    cntLt values (fBool order) 0 = 0 := by
  rw [cntLt_eq_countP, List.countP_eq_zero]
  intro v _
  cases v <;> simp [ArrayCountSorter.keyLtPred]

theorem cntLt_fBool_asc_one (values : List (Option Bool)) :
    cntLt values (fBool .Ascending) 1 =
      values.countP (· == some false) := by
  rw [cntLt_eq_countP]
  refine List.countP_congr fun v _ => ?_
  rcases v with - | b
  · simp [ArrayCountSorter.keyLtPred]
  · cases b <;> simp [ArrayCountSorter.keyLtPred, fBool]

theorem cntLt_fBool_desc_one (values : List (Option Bool)) :
    cntLt values (fBool .Descending) 1 =
      values.countP (· == some true) := by
  rw [cntLt_eq_countP]
  refine List.countP_congr fun v _ => ?_
  rcases v with - | b
  · simp [ArrayCountSorter.keyLtPred]
  · cases b <;> simp [ArrayCountSorter.keyLtPred, fBool]

/-- `ArrayCountSorter(BooleanType)`, invoked as the kernels invoke it:
three-bucket counting sort into the canonical layout. -/
theorem ArrayCountSorterBool_eq (values : List (Option Bool))
    (options : ArraySortOptions) :
    ArrayCountSorterBool values (List.range values.length) 0 options =
      (layoutOf options.null_placement
        (targetIdx values (fBool options.order) 2) (nullIdx values),
       nprOf options.null_placement (nonNullIdx values).length
         (nullIdx values).length) := by
  obtain ⟨order, placement⟩ := options
  have hlen := length_nonNull_add_null values
  have hnulls := countP_isNone_eq_nullIdx values
  have hsplit := bool_count_split values
  have hR : ∀ i, validAt values i = true →
      fAt values (fBool order) i < 2 := by
    intro i _
    rw [fAt]
    rcases hveq : vAt values i with - | b
    · simp
    · cases order <;> cases b <;> simp [fBool]
  have htlen : (targetIdx values (fBool order) 2).length =
      (nonNullIdx values).length :=
    (targetIdx_perm_nonNullIdx values _ _ hR).length_eq
  have hκ : ∀ x y : Bool, (some x) ∈ values → (some y) ∈ values →
      ((if x then 1 else 0) = (if y then 1 else 0) ↔
        fBool order x = fBool order y) := by
    intro x y _ _
    cases order <;> cases x <;> cases y <;> simp [fBool]
  have hc0 : ∀ (c0 : ℕ → ℕ),
      (∀ x : Bool, (some x) ∈ values →
        c0 (if x then 1 else 0) = cntLt values (fBool order) (fBool order x)) →
      (∀ x : Bool, (some x) ∈ values →
        c0 (if x then 1 else 0) =
          cntLt values (fBool order) (fBool order x) +
            cntEqBefore values (fBool order) (fBool order x) 0) := by
    intro c0 h x hx
    rw [cntEqBefore_zero, Nat.add_zero]
    exact h x hx
  cases order with
  | Ascending =>
      have hcnt : ∀ x : Bool, (some x) ∈ values →
          ((fun k => if k = 1 then
              values.length - values.countP (· == some true) -
                values.countP (·.isNone) else 0) : ℕ → ℕ)
            (if x then 1 else 0) =
          cntLt values (fBool .Ascending) (fBool .Ascending x) := by
        intro x _
        cases x with
        | true =>
            show values.length - values.countP (· == some true) -
              values.countP (·.isNone) = _
            rw [show fBool .Ascending true = 1 from rfl, cntLt_fBool_asc_one]
            omega
        | false =>
            show (0 : ℕ) = _
            rw [show fBool .Ascending false = 0 from rfl, cntLt_fBool_zero]
      cases placement with
      | AtEnd =>
          have hspec := intSched_spec values (fun v => if v then 1 else 0)
            (fBool .Ascending) 0 (nonNullIdx values).length hκ
            values.length 0
            (fun k => if k = 1 then
              values.length - values.countP (· == some true) -
                values.countP (·.isNone) else 0) 0 (by omega)
            (hc0 (fun k => if k = 1 then
              values.length - values.countP (· == some true) -
                values.countP (·.isNone) else 0) hcnt) rfl
          rw [List.drop_zero, Nat.sub_zero, ← List.range_eq_range'] at hspec
          simp only [ArrayCountSorterBool, List.length_range,
            NullPartitionResult.NullsAtEnd, Prod.mk.injEq]
          constructor
          · rw [bool_fold_eq_applyWrites]
            rw [boolSched_eq_intSched _ _ _ _ _ _ (fun k _ => rfl)]
            rw [if_neg (show ¬ ((2 : ℕ) = 1) by decide)]
            rw [show values.length -
                List.countP (fun x : Option Bool => x.isNone) values =
              (nonNullIdx values).length from by rw [hnulls]; omega]
            rw [hspec, ← htlen]
            exact applyWrites_layout values (fBool .Ascending) 2 .AtEnd
              (List.range values.length) hR (by simp)
          · rw [hnulls]
            simp only [nprOf, NullPartitionResult.mk.injEq, true_and,
              and_true]
            omega
      | AtStart =>
          have hspec := intSched_spec values (fun v => if v then 1 else 0)
            (fBool .Ascending) (nullIdx values).length 0 hκ
            values.length 0
            (fun k => if k = 1 then
              values.length - values.countP (· == some true) -
                values.countP (·.isNone) else 0) 0 (by omega)
            (hc0 (fun k => if k = 1 then
              values.length - values.countP (· == some true) -
                values.countP (·.isNone) else 0) hcnt) rfl
          rw [List.drop_zero, Nat.sub_zero, ← List.range_eq_range'] at hspec
          simp only [ArrayCountSorterBool, List.length_range,
            NullPartitionResult.NullsAtStart, Prod.mk.injEq]
          constructor
          · rw [bool_fold_eq_applyWrites]
            rw [boolSched_eq_intSched _ _ _ _ _ _ (fun k _ => rfl)]
            rw [if_neg (show ¬ ((2 : ℕ) = 1) by decide)]
            rw [show 0 + List.countP (fun x : Option Bool => x.isNone) values =
              (nullIdx values).length from by rw [Nat.zero_add, hnulls]]
            rw [hspec]
            exact applyWrites_layout values (fBool .Ascending) 2 .AtStart
              (List.range values.length) hR (by simp)
          · rw [hnulls]
            simp only [nprOf, NullPartitionResult.mk.injEq, true_and,
              and_true]
            omega
  | Descending =>
      have hcnt : ∀ x : Bool, (some x) ∈ values →
          ((fun k => if k = 0 then values.countP (· == some true) else 0) :
              ℕ → ℕ) (if x then 1 else 0) =
          cntLt values (fBool .Descending) (fBool .Descending x) := by
        intro x _
        cases x with
        | true =>
            show (0 : ℕ) = _
            rw [show fBool .Descending true = 0 from rfl, cntLt_fBool_zero]
        | false =>
            show values.countP (· == some true) = _
            rw [show fBool .Descending false = 1 from rfl,
              cntLt_fBool_desc_one]
      cases placement with
      | AtEnd =>
          have hspec := intSched_spec values (fun v => if v then 1 else 0)
            (fBool .Descending) 0 (nonNullIdx values).length hκ
            values.length 0
            (fun k => if k = 0 then values.countP (· == some true) else 0) 0
            (by omega)
            (hc0 (fun k => if k = 0 then values.countP (· == some true)
              else 0) hcnt) rfl
          rw [List.drop_zero, Nat.sub_zero, ← List.range_eq_range'] at hspec
          simp only [ArrayCountSorterBool, List.length_range,
            NullPartitionResult.NullsAtEnd, Prod.mk.injEq]
          constructor
          · rw [bool_fold_eq_applyWrites]
            rw [boolSched_eq_intSched _ _ _ _ _ _ (fun k _ => rfl)]
            rw [if_neg (show ¬ ((2 : ℕ) = 0) by decide)]
            rw [show values.length -
                List.countP (fun x : Option Bool => x.isNone) values =
              (nonNullIdx values).length from by rw [hnulls]; omega]
            rw [hspec, ← htlen]
            exact applyWrites_layout values (fBool .Descending) 2 .AtEnd
              (List.range values.length) hR (by simp)
          · rw [hnulls]
            simp only [nprOf, NullPartitionResult.mk.injEq, true_and,
              and_true]
            omega
      | AtStart =>
          have hspec := intSched_spec values (fun v => if v then 1 else 0)
            (fBool .Descending) (nullIdx values).length 0 hκ
            values.length 0
            (fun k => if k = 0 then values.countP (· == some true) else 0) 0
            (by omega)
            (hc0 (fun k => if k = 0 then values.countP (· == some true)
              else 0) hcnt) rfl
          rw [List.drop_zero, Nat.sub_zero, ← List.range_eq_range'] at hspec
          simp only [ArrayCountSorterBool, List.length_range,
            NullPartitionResult.NullsAtStart, Prod.mk.injEq]
          constructor
          · rw [bool_fold_eq_applyWrites]
            rw [boolSched_eq_intSched _ _ _ _ _ _ (fun k _ => rfl)]
            rw [if_neg (show ¬ ((2 : ℕ) = 0) by decide)]
            rw [show 0 + List.countP (fun x : Option Bool => x.isNone) values =
              (nullIdx values).length from by rw [Nat.zero_add, hnulls]]
            rw [hspec]
            exact applyWrites_layout values (fBool .Descending) 2 .AtStart
              (List.range values.length) hR (by simp)
          · rw [hnulls]
            simp only [nprOf, NullPartitionResult.mk.injEq, true_and,
              and_true]
            omega

/-! ## Adaptive sorter, null sorter, dispatcher -/

theorem ArrayCountSorter_run_eq (cfg : ArrayCountSorter.Cfg)
    (values : List (Option ℤ)) (buf : List ℕ) (offset : ℕ)
    (options : ArraySortOptions) :
    ArrayCountSorter.run cfg values buf offset options =
      ArrayCountSorter.SortInternal cfg values buf offset options := by
  rw [ArrayCountSorter.run, ite_self]

theorem SetMinMax_min (mn mx : ℤ) :
    (ArrayCountSorter.SetMinMax mn mx).min = mn := rfl

theorem SetMinMax_value_range (mn mx : ℤ) (h1 : mn ≤ mx)
    (h2 : (mx - mn).toNat + 1 < 2 ^ 32) :
    (ArrayCountSorter.SetMinMax mn mx).value_range = (mx - mn).toNat + 1 := by
  have e1 : (2 : ℤ) ^ 32 = 4294967296 := by norm_num
  have e2 : (2 : ℕ) ^ 32 = 4294967296 := by norm_num
  rw [e2] at h2
  have h0 : (0 : ℤ) ≤ mx - mn := by omega
  have hlt : mx - mn < 2 ^ 32 := by rw [e1]; omega
  have hemod : (mx - mn).emod (2 ^ 32) = mx - mn := Int.emod_eq_of_lt h0 hlt
  rw [ArrayCountSorter.SetMinMax]
  simp only [hemod]
  rw [e2]
  exact Nat.mod_eq_of_lt h2

/-- The `GetMinMax` fold starting from a seeded accumulator. -/
theorem getMinMax_fold_some (values : List (Option ℤ)) :
    ∀ (a b : ℤ), ∃ a2 b2,
      values.foldl
        (fun acc v =>
          match acc, v with
          | none, some x => some (x, x)
          | some (mn, mx), some x => some (min mn x, max mx x)
          | acc, none => acc)
        (some (a, b)) = some (a2, b2) ∧ a2 ≤ a ∧ b ≤ b2 ∧
      (∀ x, (some x) ∈ values → a2 ≤ x ∧ x ≤ b2) := by
  induction values with
  | nil => intro a b; exact ⟨a, b, rfl, le_rfl, le_rfl, by simp⟩
  | cons v rest ih =>
      intro a b
      cases v with
      | none =>
          obtain ⟨a2, b2, h1, h2, h3, h4⟩ := ih a b
          exact ⟨a2, b2, h1, h2, h3, fun x hx => h4 x (by
            rcases List.mem_cons.mp hx with h | h
            · cases h
            · exact h)⟩
      | some y =>
          obtain ⟨a2, b2, h1, h2, h3, h4⟩ := ih (min a y) (max b y)
          refine ⟨a2, b2, h1, le_trans h2 (min_le_left a y),
            le_trans (le_max_left b y) h3, ?_⟩
          intro x hx
          rcases List.mem_cons.mp hx with h | h
          · cases Option.some.inj h
            exact ⟨le_trans h2 (min_le_right a y),
              le_trans (le_max_right b y) h3⟩
          · exact h4 x h

/-- Modelled `GetMinMax` really bounds all valid values. -/
theorem GetMinMax_bounds (values : List (Option ℤ)) :
    ∀ x, (some x) ∈ values →
      (GetMinMax values).1 ≤ x ∧ x ≤ (GetMinMax values).2 := by
  induction values with
  | nil => intro x hx; cases hx
  | cons v rest ih =>
      cases v with
      | none =>
          intro x hx
          rcases List.mem_cons.mp hx with h | h
          · cases h
          · exact ih x h
      | some y =>
          intro x hx
          obtain ⟨a2, b2, h1, h2, h3, h4⟩ := getMinMax_fold_some rest y y
          have hG : GetMinMax (some y :: rest) = (a2, b2) := by
            rw [GetMinMax]
            simp only [List.foldl_cons]
            rw [h1]
          rcases List.mem_cons.mp hx with h | h
          · cases Option.some.inj h
            rw [hG]
            exact ⟨h2, h3⟩
          · rw [hG]
            exact h4 x h

theorem GetMinMax_le (values : List (Option ℤ)) (x : ℤ)
    (hx : (some x) ∈ values) :
    (GetMinMax values).1 ≤ (GetMinMax values).2 := by
  have := GetMinMax_bounds values x hx
  omega

/-- The dispatch condition of `ArrayCountOrCompareSorter`, exactly as the
code tests it. -/
theorem countOrCompare_dispatch (values : List (Option ℤ)) (buf : List ℕ)
    (offset : ℕ) (options : ArraySortOptions) :
    (values.length ≥ countsort_min_len ∧
        values.length > values.countP (·.isNone) ∧
        (((GetMinMax values).2 - (GetMinMax values).1).emod (2 ^ 64)).toNat ≤
          countsort_max_range →
      ArrayCountOrCompareSorter values buf offset options =
        ArrayCountSorter.run
          (ArrayCountSorter.SetMinMax (GetMinMax values).1
            (GetMinMax values).2) values buf offset options) ∧
    (¬ (values.length ≥ countsort_min_len ∧
        values.length > values.countP (·.isNone) ∧
        (((GetMinMax values).2 - (GetMinMax values).1).emod (2 ^ 64)).toNat ≤
          countsort_max_range) →
      ArrayCountOrCompareSorter values buf offset options =
        ArrayCompareSorter values buf offset options) := by
  constructor
  · intro h
    rw [ArrayCountOrCompareSorter, if_pos ⟨h.1, h.2.1⟩, if_pos h.2.2]
  · intro h
    by_cases houter : values.length ≥ countsort_min_len ∧
        values.length > values.countP (·.isNone)
    · have hinner : ¬ ((((GetMinMax values).2 - (GetMinMax values).1).emod
          (2 ^ 64)).toNat ≤ countsort_max_range) := by
        intro hc
        exact h ⟨houter.1, houter.2, hc⟩
      rw [ArrayCountOrCompareSorter, if_pos houter, if_neg hinner]
    · rw [ArrayCountOrCompareSorter, if_neg houter]

/-- `ArrayNullSorter` returns the untouched buffer and the all-null
partition. -/
theorem ArrayNullSorter_eq (buf : List ℕ) (options : ArraySortOptions) :
    ArrayNullSorter buf options =
      (buf, NullPartitionResult.NullsOnly 0 buf.length
        options.null_placement) := rfl

/-! ## The partition-nth kernel -/

/-- Characterization of `PartitionNthToIndices::Exec` for an in-range
pivot: null-partition, and fully sort the non-null block when the pivot
falls inside it (the model's admissible instantiation of
`std::nth_element`), else leave the partitioned buffer as is. -/
theorem PartitionNthToIndicesExec_char [LinearOrder α]
    (values : List (Option α)) (pivot : ℕ) (placement : NullPlacement)
    (outBuf : List ℕ) (hpN : pivot < values.length) :
    PartitionNthToIndicesExec values (some ⟨pivot, placement⟩) outBuf =
      (none,
        if (PartitionNullsNonStable values 0 (List.range values.length)
              placement).2.non_nulls_begin ≤ pivot ∧
            pivot < (PartitionNullsNonStable values 0
              (List.range values.length) placement).2.non_nulls_end then
          layoutOf placement
            (stableSortModel (cmpOf values .Ascending) (nonNullIdx values))
            (nullIdx values)
        else layoutOf placement (nonNullIdx values) (nullIdx values)) := by
  have hlen := length_nonNull_add_null values
  have hfilter1 : (List.range values.length).filter
      (fun i => validAt values (i - 0)) = nonNullIdx values := by
    rw [nonNullIdx]
    exact List.filter_congr fun i _ => by rw [Nat.sub_zero]
  have hfilter2 : (List.range values.length).filter
      (fun i => !validAt values (i - 0)) = nullIdx values := by
    rw [nullIdx]
    exact List.filter_congr fun i _ => by rw [Nat.sub_zero]
  simp only [PartitionNthToIndicesExec, PartitionNullsNonStable,
    PartitionNullsStable, hfilter1, hfilter2, List.length_range]
  rw [if_neg (show ¬ pivot > values.length by omega),
    if_neg (show ¬ pivot = values.length by omega)]
  cases placement with
  | AtEnd =>
      simp only [NullPartitionResult.NullsAtEnd]
      by_cases hcond : 0 ≤ pivot ∧ pivot < (nonNullIdx values).length
      · rw [if_pos hcond, if_pos hcond]
        simp only [nthElementModel]
        rw [show (fun left right =>
            decide (optValLT (vAt values left) (vAt values right))) =
          cmpOf values .Ascending from rfl]
        rw [List.take_zero, Nat.sub_zero, List.drop_zero,
          List.take_left' rfl, List.drop_left' rfl, List.nil_append]
        rfl
      · rw [if_neg hcond, if_neg hcond]
        rfl
  | AtStart =>
      simp only [NullPartitionResult.NullsAtStart]
      by_cases hcond : (nullIdx values).length ≤ pivot ∧
          pivot < values.length
      · rw [if_pos hcond, if_pos hcond]
        simp only [nthElementModel]
        rw [show (fun left right =>
            decide (optValLT (vAt values left) (vAt values right))) =
          cmpOf values .Ascending from rfl]
        rw [List.take_left' rfl, List.drop_left' rfl,
          List.take_of_length_le (by omega),
          List.drop_eq_nil_of_le (by simp; omega), List.append_nil]
        rfl
      · rw [if_neg hcond, if_neg hcond]
        rfl

/-! ## Claim-level vocabulary -/

/-- A layout whose non-null block is any permutation of the valid rows is
a permutation of the full index range. -/
theorem layout_perm_range_of (values : List (Option V))
    (placement : NullPlacement) (nn : List ℕ)
    (h : List.Perm nn (nonNullIdx values)) :
    List.Perm (layoutOf placement nn (nullIdx values))
      (List.range values.length) := by
  have h2 := layout_perm_range values placement
  cases placement with
  | AtStart => exact ((List.Perm.refl (nullIdx values)).append h).trans h2
  | AtEnd => exact (h.append (List.Perm.refl (nullIdx values))).trans h2

/-- Null rows are grouped at the configured end of the output buffer:
with `AtEnd` no null row precedes a non-null row, with `AtStart` no
non-null row precedes a null row. -/
def NullsGrouped (values : List (Option γ)) (placement : NullPlacement)
    (out : List ℕ) : Prop :=
  match placement with
  | .AtEnd => out.Pairwise fun i j =>
      validAt values i = false → validAt values j = false
  | .AtStart => out.Pairwise fun i j =>
      validAt values i = true → validAt values j = true

theorem vAt_none_of_invalid {values : List (Option V)} {j : ℕ}
    (h : validAt values j = false) : vAt values j = none := by
  rw [validAt] at h
  exact Option.not_isSome_iff_eq_none.mp (by simp [h])

theorem NullsGrouped_layout (values : List (Option V))
    (placement : NullPlacement) (nn : List ℕ)
    (hval : ∀ i ∈ nn, validAt values i = true) :
    NullsGrouped values placement
      (layoutOf placement nn (nullIdx values)) := by
  cases placement with
  | AtEnd =>
      rw [NullsGrouped, layoutOf, List.pairwise_append]
      refine ⟨?_, ?_, ?_⟩
      · exact List.pairwise_of_forall_mem_list fun i hi j hj hf => by
          rw [hval i hi] at hf; cases hf
      · exact List.pairwise_of_forall_mem_list fun i hi j hj _ =>
          (mem_nullIdx.mp hj).2
      · exact fun i _ j hj _ => (mem_nullIdx.mp hj).2
  | AtStart =>
      rw [NullsGrouped, layoutOf, List.pairwise_append]
      refine ⟨?_, ?_, ?_⟩
      · exact List.pairwise_of_forall_mem_list fun i hi j hj ht => by
          rw [(mem_nullIdx.mp hi).2] at ht; cases ht
      · exact List.pairwise_of_forall_mem_list fun i hi j hj _ => hval j hj
      · exact fun i _ j hj _ => hval j hj

/-- Restricting the output to the valid rows recovers exactly the
non-null block, independently of the placement. -/
theorem filter_valid_layout (values : List (Option V))
    (placement : NullPlacement) (nn : List ℕ)
    (hval : ∀ i ∈ nn, validAt values i = true) :
    (layoutOf placement nn (nullIdx values)).filter
      (fun i => validAt values i) = nn := by
  have h1 : nn.filter (fun i => validAt values i) = nn :=
    List.filter_eq_self.mpr hval
  have h2 : (nullIdx values).filter (fun i => validAt values i) = [] :=
    List.filter_eq_nil_iff.mpr fun j hj => by
      simp [(mem_nullIdx.mp hj).2]
  cases placement with
  | AtEnd => rw [layoutOf, List.filter_append, h1, h2, List.append_nil]
  | AtStart => rw [layoutOf, List.filter_append, h1, h2, List.nil_append]

theorem getD_append_left_mem (A B : List ℕ) (q : ℕ) (hq : q < A.length) :
    (A ++ B).getD q 0 ∈ A := by
  rw [List.getD_eq_getElem?_getD, List.getElem?_append_left hq,
    List.getElem?_eq_getElem hq]
  exact List.getElem_mem hq

theorem getD_append_right_mem (A B : List ℕ) (q : ℕ) (hq : A.length ≤ q)
    (hq2 : q < A.length + B.length) :
    (A ++ B).getD q 0 ∈ B := by
  rw [List.getD_eq_getElem?_getD, List.getElem?_append_right hq]
  have hlt : q - A.length < B.length := by omega
  rw [List.getElem?_eq_getElem hlt]
  exact List.getElem_mem hlt

/-- Well-formedness of a `NullPartitionResult` over a buffer of length
`N`: both sub-ranges are contiguous and disjoint, they are adjacent, their
union is the whole range `[0, N)`, and the null sub-range sits at the end
requested by the placement policy. -/
def WellFormedNPR (placement : NullPlacement) (N : ℕ)
    (p : NullPartitionResult) : Prop :=
  match placement with
  | .AtStart => p.nulls_begin = 0 ∧ p.nulls_end = p.non_nulls_begin ∧
      p.non_nulls_begin ≤ p.non_nulls_end ∧ p.non_nulls_end = N
  | .AtEnd => p.non_nulls_begin = 0 ∧ p.non_nulls_end = p.nulls_begin ∧
      p.nulls_begin ≤ p.nulls_end ∧ p.nulls_end = N

theorem nprOf_wellformed (placement : NullPlacement) (nn nl : ℕ) :
    WellFormedNPR placement (nn + nl) (nprOf placement nn nl) := by
  cases placement with
  | AtStart => exact ⟨rfl, rfl, Nat.le_add_right nl nn, Nat.add_comm nl nn⟩
  | AtEnd => exact ⟨rfl, rfl, Nat.le_add_right nn nl, rfl⟩

theorem NullsOnly_wellformed (placement : NullPlacement) (N : ℕ) :
    WellFormedNPR placement N
      (NullPartitionResult.NullsOnly 0 N placement) := by
  cases placement with
  | AtStart => exact ⟨rfl, rfl, le_rfl, rfl⟩
  | AtEnd => exact ⟨rfl, rfl, Nat.zero_le N, rfl⟩

/-! ## The type dispatcher -/

/-- Runtime logical type tags for the types the kernel registry handles,
plus representative nested types (which have no registered sorter). -/
inductive DataTypeTag where
  | nullT | booleanT
  | int8T | int16T | int32T | int64T
  | uint8T | uint16T | uint32T | uint64T
  | float32T | float64T
  | date32T | date64T | time32T | time64T | timestampT | durationT
  | decimal128T | decimal256T
  | stringT | largeStringT | binaryT | largeBinaryT | fixedSizeBinaryT
  | listT | structT | mapT
deriving DecidableEq, Repr

/-- Modelled from the spec: `GetPhysicalType` — temporal and duration
types are sorted via their integer physical representation; every other
listed type is its own physical representation. -/
def GetPhysicalType : DataTypeTag → DataTypeTag
  | .date32T => .int32T
  | .date64T => .int64T
  | .time32T => .int32T
  | .time64T => .int64T
  | .timestampT => .int64T
  | .durationT => .int64T
  | t => t

/-- The sorter specializations a type can resolve to (the registered
`ArraySorter` instances). -/
inductive SorterKind where
  | nullSorter
  | booleanCountSorter
  | byteCountSorter (min max : ℤ)
  | countOrCompareSorter
  | compareSorter
deriving DecidableEq, Repr

/-- Display name of a type tag, for the dispatcher's error message. -/
def typeName : DataTypeTag → String
  | .nullT => "null" | .booleanT => "bool"
  | .int8T => "int8" | .int16T => "int16"
  | .int32T => "int32" | .int64T => "int64"
  | .uint8T => "uint8" | .uint16T => "uint16"
  | .uint32T => "uint32" | .uint64T => "uint64"
  | .float32T => "float" | .float64T => "double"
  | .date32T => "date32" | .date64T => "date64"
  | .time32T => "time32" | .time64T => "time64"
  | .timestampT => "timestamp" | .durationT => "duration"
  | .decimal128T => "decimal128" | .decimal256T => "decimal256"
  | .stringT => "string" | .largeStringT => "large_string"
  | .binaryT => "binary" | .largeBinaryT => "large_binary"
  | .fixedSizeBinaryT => "fixed_size_binary"
  | .listT => "list" | .structT => "struct" | .mapT => "map"

/-- `ArraySorterFactory` (`GetArraySorter`): which `ArraySorter`
specialization a physical type resolves to.  A type with no registered
specialization takes the fallback `Visit(const DataType&)` overload and
produces the `TypeError`. -/
def GetArraySorterModel : DataTypeTag → Except String SorterKind
  | .nullT => .ok .nullSorter
  | .booleanT => .ok .booleanCountSorter
  | .uint8T => .ok (.byteCountSorter 0 255)
  | .int8T => .ok (.byteCountSorter (-128) 127)
  | .int16T | .int32T | .int64T
  | .uint16T | .uint32T | .uint64T => .ok .countOrCompareSorter
  | .float32T | .float64T => .ok .compareSorter
  | .stringT | .largeStringT | .binaryT | .largeBinaryT
  | .fixedSizeBinaryT | .decimal128T | .decimal256T => .ok .compareSorter
  | t => .error ("Sorting not supported for type " ++ typeName t)

/-- `ArraySortIndices::Exec` at the dispatch level: the sorter is
resolved from the physical type before the output buffer is touched, so
on a dispatch error the preallocated buffer is returned untouched;
`run` abstracts the buffer the resolved sorter produces. -/
def ArraySortIndicesDispatch (t : DataTypeTag) (outBuf : List ℕ)
    (run : SorterKind → List ℕ) : Option String × List ℕ :=
  match GetArraySorterModel (GetPhysicalType t) with
  | .error e => (some e, outBuf)
  | .ok k => (none, run k)

/-! ## Shared bridging lemmas for the claims -/

theorem hR_of_hbound2 (cfg : ArrayCountSorter.Cfg) (values : List (Option ℤ))
    (order : SortOrder)
    (hbound2 : ∀ x, (some x) ∈ values →
      cfg.min ≤ x ∧ (x - cfg.min).toNat < cfg.value_range) :
    ∀ i, validAt values i = true →
      fAt values (ArrayCountSorter.fOf cfg order) i < cfg.value_range := by
  intro i hv
  obtain ⟨x, hx⟩ := Option.isSome_iff_exists.mp (by rw [validAt] at hv; exact hv)
  have hmem : (some x) ∈ values := by
    rw [← hx]; exact vAt_mem_of_valid values i hv
  have hb := hbound2 x hmem
  rw [fAt, hx]
  cases order <;> simp only [ArrayCountSorter.fOf] <;> omega

theorem fBool_lt_two (values : List (Option Bool)) (order : SortOrder) :
    ∀ i, validAt values i = true → fAt values (fBool order) i < 2 := by
  intro i _
  rw [fAt]
  rcases hveq : vAt values i with - | b
  · simp
  · cases order <;> cases b <;> simp [fBool]

/-- The boolean bucketed block reads out in `rowLE` order. -/
theorem target_block_sorted_bool (values : List (Option Bool))
    (options : ArraySortOptions) :
    (targetIdx values (fBool options.order) 2).Pairwise
      fun i j => rowLE options (vAt values i) (vAt values j) := by
  obtain ⟨order, placement⟩ := options
  refine (targetIdx_pairwise values _ _).imp_of_mem ?_
  intro i j hi hj hS
  obtain ⟨hiN, hvi⟩ := mem_targetIdx_valid hi
  obtain ⟨hjN, hvj⟩ := mem_targetIdx_valid hj
  obtain ⟨a, ha⟩ := Option.isSome_iff_exists.mp
    (by rw [validAt] at hvi; exact hvi)
  obtain ⟨b, hb⟩ := Option.isSome_iff_exists.mp
    (by rw [validAt] at hvj; exact hvj)
  rw [ha, hb]
  simp only [fAt, ha, hb] at hS
  cases order <;> cases a <;> cases b <;>
    first
      | exact (by decide : (false : Bool) ≤ false)
      | exact (by decide : (false : Bool) ≤ true)
      | exact (by decide : (true : Bool) ≤ true)
      | simp [fBool] at hS

theorem pairwise_getD {R : ℕ → ℕ → Prop} {L : List ℕ}
    (h : L.Pairwise R) {q1 q2 : ℕ} (h1 : q1 < q2) (h2 : q2 < L.length) :
    R (L.getD q1 0) (L.getD q2 0) := by
  have hq1 : q1 < L.length := by omega
  rw [List.getD_eq_getElem L 0 hq1, List.getD_eq_getElem L 0 h2]
  exact List.pairwise_iff_getElem.mp h q1 q2 hq1 h2 h1

theorem rowLE_to_none_AtEnd [LinearOrder α] (order : SortOrder)
    (x : Option α) : rowLE ⟨order, .AtEnd⟩ x none := by
  cases x <;> simp [rowLE]

theorem rowLE_from_none_AtStart [LinearOrder α] (order : SortOrder)
    (x : Option α) : rowLE ⟨order, .AtStart⟩ none x := by
  cases x <;> simp [rowLE]

/-- The non-stable null partition (as modelled) rearranges the identity
buffer into the canonical layout. -/
theorem partitionNulls_fst (values : List (Option V))
    (placement : NullPlacement) :
    (PartitionNullsNonStable values 0 (List.range values.length)
        placement).1 =
      layoutOf placement (nonNullIdx values) (nullIdx values) := by
  have hfilter1 : (List.range values.length).filter
      (fun i => validAt values (i - 0)) = nonNullIdx values := by
    rw [nonNullIdx]
    exact List.filter_congr fun i _ => by rw [Nat.sub_zero]
  have hfilter2 : (List.range values.length).filter
      (fun i => !validAt values (i - 0)) = nullIdx values := by
    rw [nullIdx]
    exact List.filter_congr fun i _ => by rw [Nat.sub_zero]
  cases placement <;>
    simp only [PartitionNullsNonStable, PartitionNullsStable, hfilter1,
      hfilter2, layoutOf]

/-- The non-stable null partition (as modelled) reports the canonical
partition boundaries. -/
theorem partitionNulls_snd (values : List (Option V))
    (placement : NullPlacement) :
    (PartitionNullsNonStable values 0 (List.range values.length)
        placement).2 =
      nprOf placement (nonNullIdx values).length (nullIdx values).length := by
  have hlen := length_nonNull_add_null values
  have hfilter1 : (List.range values.length).filter
      (fun i => validAt values (i - 0)) = nonNullIdx values := by
    rw [nonNullIdx]
    exact List.filter_congr fun i _ => by rw [Nat.sub_zero]
  have hfilter2 : (List.range values.length).filter
      (fun i => !validAt values (i - 0)) = nullIdx values := by
    rw [nullIdx]
    exact List.filter_congr fun i _ => by rw [Nat.sub_zero]
  cases placement with
  | AtStart =>
      simp only [PartitionNullsNonStable, PartitionNullsStable, hfilter1,
        hfilter2, List.length_range, NullPartitionResult.NullsAtStart, nprOf]
      congr 1
      omega
  | AtEnd =>
      simp only [PartitionNullsNonStable, PartitionNullsStable, hfilter1,
        hfilter2, List.length_range, NullPartitionResult.NullsAtEnd, nprOf]
      congr 1
      omega

/-! ## The claims -/

/-- C1: the index permutation produced by the sort-indices kernel is
stable on every sorting path: the comparison sorter, the integer counting
sorter (under a configuration whose bucket range covers all values, as
guaranteed by `SetMinMax`), and the boolean counting sorter all place
rows with equal logical values in their original relative index order. -/
theorem C1_sort_indices_stable :
    (∀ (α : Type) [inst : LinearOrder α], ∀ (values : List (Option α))
        (options : ArraySortOptions),
      StableOut values
        (ArrayCompareSorter values (List.range values.length) 0
          options).1) ∧
    (∀ (cfg : ArrayCountSorter.Cfg) (values : List (Option ℤ))
        (options : ArraySortOptions),
      (∀ x, (some x) ∈ values →
        cfg.min ≤ x ∧ (x - cfg.min).toNat < cfg.value_range) →
      StableOut values
        (ArrayCountSorter.run cfg values (List.range values.length) 0
          options).1) ∧
    (∀ (values : List (Option Bool)) (options : ArraySortOptions),
      StableOut values
        (ArrayCountSorterBool values (List.range values.length) 0
          options).1) := by
  refine ⟨?_, ?_, ?_⟩
  · intro α inst values options
    rw [ArrayCompareSorter_eq]
    exact StableOut_layout values options.null_placement _
      (List.mergeSort_perm _ _) (compare_block_stable values options.order)
  · intro cfg values options hbound2
    rw [ArrayCountSorter_run_eq,
      SortInternal_eq_layout cfg values options
        (fun x hx => (hbound2 x hx).2)]
    exact StableOut_layout values options.null_placement _
      (targetIdx_perm_nonNullIdx values _ _
        (hR_of_hbound2 cfg values options.order hbound2))
      (target_block_stable values _ _)
  · intro values options
    rw [ArrayCountSorterBool_eq]
    exact StableOut_layout values options.null_placement _
      (targetIdx_perm_nonNullIdx values _ _
        (fBool_lt_two values options.order))
      (target_block_stable values _ _)

theorem C1_sort_indices_stable_witness :
    StableOut [some (3 : ℤ), some 1, some 3, some 2]
      (ArrayCountSorter.run ⟨1, 3⟩ [some (3 : ℤ), some 1, some 3, some 2]
        (List.range 4) 0 ⟨.Ascending, .AtEnd⟩).1 :=
  C1_sort_indices_stable.2.1 ⟨1, 3⟩ [some (3 : ℤ), some 1, some 3, some 2]
    ⟨.Ascending, .AtEnd⟩
    (by
      intro x hx
      simp only [List.mem_cons, List.not_mem_nil, or_false,
        Option.some.injEq] at hx
      rcases hx with rfl | rfl | rfl | rfl <;> decide)

/-- C2: on every sorting path the output reads the array out in `rowLE`
order (non-decreasing for ascending, non-increasing for descending, nulls
at the configured end) and is a permutation of the index range
`0..N-1`. -/
theorem C2_sort_indices_sorted :
    (∀ (α : Type) [inst : LinearOrder α], ∀ (values : List (Option α))
        (options : ArraySortOptions),
      SortedOut values options
          (ArrayCompareSorter values (List.range values.length) 0
            options).1 ∧
        List.Perm
          (ArrayCompareSorter values (List.range values.length) 0
            options).1
          (List.range values.length)) ∧
    (∀ (cfg : ArrayCountSorter.Cfg) (values : List (Option ℤ))
        (options : ArraySortOptions),
      (∀ x, (some x) ∈ values →
        cfg.min ≤ x ∧ (x - cfg.min).toNat < cfg.value_range) →
      SortedOut values options
          (ArrayCountSorter.run cfg values (List.range values.length) 0
            options).1 ∧
        List.Perm
          (ArrayCountSorter.run cfg values (List.range values.length) 0
            options).1
          (List.range values.length)) ∧
    (∀ (values : List (Option Bool)) (options : ArraySortOptions),
      SortedOut values options
          (ArrayCountSorterBool values (List.range values.length) 0
            options).1 ∧
        List.Perm
          (ArrayCountSorterBool values (List.range values.length) 0
            options).1
          (List.range values.length)) := by
  refine ⟨?_, ?_, ?_⟩
  · intro α inst values options
    rw [ArrayCompareSorter_eq]
    exact ⟨SortedOut_layout values options _ (List.mergeSort_perm _ _)
        (compare_block_sorted values options),
      layout_perm_range_of values options.null_placement _
        (List.mergeSort_perm _ _)⟩
  · intro cfg values options hbound2
    rw [ArrayCountSorter_run_eq,
      SortInternal_eq_layout cfg values options
        (fun x hx => (hbound2 x hx).2)]
    have hperm := targetIdx_perm_nonNullIdx values
      (ArrayCountSorter.fOf cfg options.order) cfg.value_range
      (hR_of_hbound2 cfg values options.order hbound2)
    exact ⟨SortedOut_layout values options _ hperm
        (target_block_sorted_int cfg values options hbound2),
      layout_perm_range_of values options.null_placement _ hperm⟩
  · intro values options
    rw [ArrayCountSorterBool_eq]
    have hperm := targetIdx_perm_nonNullIdx values (fBool options.order) 2
      (fBool_lt_two values options.order)
    exact ⟨SortedOut_layout values options _ hperm
        (target_block_sorted_bool values options),
      layout_perm_range_of values options.null_placement _ hperm⟩

theorem C2_sort_indices_sorted_witness :
    SortedOut [some (3 : ℤ), some 1, some 3, some 2]
        (⟨.Ascending, .AtEnd⟩ : ArraySortOptions)
        (ArrayCountSorter.run ⟨1, 3⟩ [some (3 : ℤ), some 1, some 3, some 2]
          (List.range 4) 0 ⟨.Ascending, .AtEnd⟩).1 ∧
      List.Perm
        (ArrayCountSorter.run ⟨1, 3⟩ [some (3 : ℤ), some 1, some 3, some 2]
          (List.range 4) 0 ⟨.Ascending, .AtEnd⟩).1
        (List.range 4) :=
  C2_sort_indices_sorted.2.1 ⟨1, 3⟩ [some (3 : ℤ), some 1, some 3, some 2]
    ⟨.Ascending, .AtEnd⟩
    (by
      intro x hx
      simp only [List.mem_cons, List.not_mem_nil, or_false,
        Option.some.injEq] at hx
      rcases hx with rfl | rfl | rfl | rfl <;> decide)

/-- C4 (amended): nulls are laid out grouped at the configured end in
both kernels and every sorter specialization; in the sort-indices kernel
the placement only chooses the end and never alters the relative order
of the non-null rows (comparison, integer counting and boolean counting
paths); in the partition-nth kernel the placement never changes which
rows are classified non-null and feeds the selection step the same
non-null arrangement for either placement, but the output's relative
non-null order can differ between placements, because whether the
selection step runs depends on where the pivot falls relative to the
placement-dependent non-null sub-range (see the counterexample); under
the total order used for floats (modelled on `WithTop ℚ`, `⊤` playing
NaN) NaN is greater than every finite value yet smaller than null, and
the spec's example array `[1.0, NaN, null, 0.0]` sorts ascending/AtEnd
to the permutation `[3, 0, 1, 2]`. -/
theorem C4_null_nan_ordering :
    (∀ (α : Type) [inst : LinearOrder α], ∀ (values : List (Option α))
        (options : ArraySortOptions),
      NullsGrouped values options.null_placement
        (ArrayCompareSorter values (List.range values.length) 0
          options).1) ∧
    (∀ (cfg : ArrayCountSorter.Cfg) (values : List (Option ℤ))
        (options : ArraySortOptions),
      (∀ x, (some x) ∈ values →
        cfg.min ≤ x ∧ (x - cfg.min).toNat < cfg.value_range) →
      NullsGrouped values options.null_placement
        (ArrayCountSorter.run cfg values (List.range values.length) 0
          options).1) ∧
    (∀ (values : List (Option Bool)) (options : ArraySortOptions),
      NullsGrouped values options.null_placement
        (ArrayCountSorterBool values (List.range values.length) 0
          options).1) ∧
    (∀ (α : Type) [inst : LinearOrder α], ∀ (values : List (Option α))
        (pivot : ℕ) (placement : NullPlacement) (outBuf : List ℕ),
      pivot < values.length →
      NullsGrouped values placement
        (PartitionNthToIndicesExec values (some ⟨pivot, placement⟩)
          outBuf).2) ∧
    (∀ (α : Type) [inst : LinearOrder α], ∀ (values : List (Option α))
        (order : SortOrder),
      (ArrayCompareSorter values (List.range values.length) 0
          ⟨order, .AtStart⟩).1.filter (fun i => validAt values i) =
        (ArrayCompareSorter values (List.range values.length) 0
          ⟨order, .AtEnd⟩).1.filter (fun i => validAt values i)) ∧
    (∀ (cfg : ArrayCountSorter.Cfg) (values : List (Option ℤ))
        (order : SortOrder),
      (∀ x, (some x) ∈ values →
        cfg.min ≤ x ∧ (x - cfg.min).toNat < cfg.value_range) →
      (ArrayCountSorter.run cfg values (List.range values.length) 0
          ⟨order, .AtStart⟩).1.filter (fun i => validAt values i) =
        (ArrayCountSorter.run cfg values (List.range values.length) 0
          ⟨order, .AtEnd⟩).1.filter (fun i => validAt values i)) ∧
    (∀ (values : List (Option Bool)) (order : SortOrder),
      (ArrayCountSorterBool values (List.range values.length) 0
          ⟨order, .AtStart⟩).1.filter (fun i => validAt values i) =
        (ArrayCountSorterBool values (List.range values.length) 0
          ⟨order, .AtEnd⟩).1.filter (fun i => validAt values i)) ∧
    (∀ (α : Type) (values : List (Option α)),
      (PartitionNullsNonStable values 0 (List.range values.length)
          NullPlacement.AtStart).1.filter (fun i => validAt values i) =
        (PartitionNullsNonStable values 0 (List.range values.length)
          NullPlacement.AtEnd).1.filter (fun i => validAt values i)) ∧
    (∀ (α : Type) [inst : LinearOrder α], ∀ (values : List (Option α))
        (pivot : ℕ) (placement : NullPlacement) (outBuf : List ℕ),
      pivot < values.length →
      List.Perm
        ((PartitionNthToIndicesExec values (some ⟨pivot, placement⟩)
          outBuf).2.filter (fun i => validAt values i))
        (nonNullIdx values)) ∧
    (∀ q : ℚ, optValLT (some ((q : ℚ) : WithTop ℚ))
        (some (⊤ : WithTop ℚ))) ∧
    (∀ x : WithTop ℚ, optValLT (some x) (none : Option (WithTop ℚ))) ∧
    (ArrayCompareSorter
        [some ((1 : ℚ) : WithTop ℚ), some ⊤, none, some ((0 : ℚ))]
        (List.range 4) 0 ⟨.Ascending, .AtEnd⟩).1 = [3, 0, 1, 2] := by
  refine ⟨?_, ?_, ?_, ?_, ?_, ?_, ?_, ?_, ?_, ?_, ?_, ?_⟩
  · intro α inst values options
    rw [ArrayCompareSorter_eq]
    exact NullsGrouped_layout values options.null_placement _
      fun i hi => (mem_nonNullIdx.mp
        ((List.mergeSort_perm _ _).subset hi)).2
  · intro cfg values options hbound2
    rw [ArrayCountSorter_run_eq,
      SortInternal_eq_layout cfg values options
        (fun x hx => (hbound2 x hx).2)]
    exact NullsGrouped_layout values options.null_placement _
      fun i hi => (mem_targetIdx_valid hi).2
  · intro values options
    rw [ArrayCountSorterBool_eq]
    exact NullsGrouped_layout values options.null_placement _
      fun i hi => (mem_targetIdx_valid hi).2
  · intro α inst values pivot placement outBuf hpN
    rw [PartitionNthToIndicesExec_char values pivot placement outBuf hpN]
    by_cases hcond : (PartitionNullsNonStable values 0
        (List.range values.length) placement).2.non_nulls_begin ≤ pivot ∧
        pivot < (PartitionNullsNonStable values 0
          (List.range values.length) placement).2.non_nulls_end
    · rw [if_pos hcond]
      exact NullsGrouped_layout values placement _
        fun i hi => (mem_nonNullIdx.mp
          ((List.mergeSort_perm _ _).subset hi)).2
    · rw [if_neg hcond]
      exact NullsGrouped_layout values placement _
        fun i hi => (mem_nonNullIdx.mp hi).2
  · intro α inst values order
    rw [ArrayCompareSorter_eq, ArrayCompareSorter_eq]
    have h1 := filter_valid_layout values NullPlacement.AtStart
      (stableSortModel (cmpOf values order) (nonNullIdx values))
      (fun i hi => (mem_nonNullIdx.mp
        ((List.mergeSort_perm _ _).subset hi)).2)
    have h2 := filter_valid_layout values NullPlacement.AtEnd
      (stableSortModel (cmpOf values order) (nonNullIdx values))
      (fun i hi => (mem_nonNullIdx.mp
        ((List.mergeSort_perm _ _).subset hi)).2)
    exact h1.trans h2.symm
  · intro cfg values order hbound2
    rw [ArrayCountSorter_run_eq, ArrayCountSorter_run_eq,
      SortInternal_eq_layout cfg values ⟨order, .AtStart⟩
        (fun x hx => (hbound2 x hx).2),
      SortInternal_eq_layout cfg values ⟨order, .AtEnd⟩
        (fun x hx => (hbound2 x hx).2)]
    have h1 := filter_valid_layout values NullPlacement.AtStart
      (targetIdx values (ArrayCountSorter.fOf cfg order) cfg.value_range)
      (fun i hi => (mem_targetIdx_valid hi).2)
    have h2 := filter_valid_layout values NullPlacement.AtEnd
      (targetIdx values (ArrayCountSorter.fOf cfg order) cfg.value_range)
      (fun i hi => (mem_targetIdx_valid hi).2)
    exact h1.trans h2.symm
  · intro values order
    rw [ArrayCountSorterBool_eq, ArrayCountSorterBool_eq]
    have h1 := filter_valid_layout values NullPlacement.AtStart
      (targetIdx values (fBool order) 2)
      (fun i hi => (mem_targetIdx_valid hi).2)
    have h2 := filter_valid_layout values NullPlacement.AtEnd
      (targetIdx values (fBool order) 2)
      (fun i hi => (mem_targetIdx_valid hi).2)
    exact h1.trans h2.symm
  · intro α values
    rw [partitionNulls_fst, partitionNulls_fst]
    have h1 := filter_valid_layout values NullPlacement.AtStart
      (nonNullIdx values) (fun i hi => (mem_nonNullIdx.mp hi).2)
    have h2 := filter_valid_layout values NullPlacement.AtEnd
      (nonNullIdx values) (fun i hi => (mem_nonNullIdx.mp hi).2)
    exact h1.trans h2.symm
  · intro α inst values pivot placement outBuf hpN
    rw [PartitionNthToIndicesExec_char values pivot placement outBuf hpN]
    by_cases hcond : (PartitionNullsNonStable values 0
        (List.range values.length) placement).2.non_nulls_begin ≤ pivot ∧
        pivot < (PartitionNullsNonStable values 0
          (List.range values.length) placement).2.non_nulls_end
    · rw [if_pos hcond]
      show List.Perm ((layoutOf placement
        (stableSortModel (cmpOf values .Ascending) (nonNullIdx values))
        (nullIdx values)).filter (fun i => validAt values i))
        (nonNullIdx values)
      rw [filter_valid_layout values placement
        (stableSortModel (cmpOf values .Ascending) (nonNullIdx values))
        (fun i hi => (mem_nonNullIdx.mp
          ((List.mergeSort_perm _ _).subset hi)).2)]
      exact List.mergeSort_perm _ _
    · rw [if_neg hcond]
      show List.Perm ((layoutOf placement (nonNullIdx values)
        (nullIdx values)).filter (fun i => validAt values i))
        (nonNullIdx values)
      exact List.Perm.of_eq (filter_valid_layout values placement
        (nonNullIdx values) (fun i hi => (mem_nonNullIdx.mp hi).2))
  · intro q
    show ((q : ℚ) : WithTop ℚ) < ⊤
    exact WithTop.coe_lt_top q
  · intro x
    trivial
  · rw [show (4 : ℕ) =
      ([some ((1 : ℚ) : WithTop ℚ), some ⊤, none, some ((0 : ℚ))] :
        List (Option (WithTop ℚ))).length from rfl,
      ArrayCompareSorter_eq]
    have hnn : nonNullIdx
        [some ((1 : ℚ) : WithTop ℚ), some ⊤, none, some ((0 : ℚ))] =
        [0, 1, 3] := by decide
    have hnl : nullIdx
        [some ((1 : ℚ) : WithTop ℚ), some ⊤, none, some ((0 : ℚ))] =
        [2] := by decide
    rw [hnn, hnl, stableSortModel]
    simp +decide [List.mergeSort, layoutOf, cmpOf]

/-- With pivot 0 on `[2, 1, null]` the pivot falls inside the non-null
sub-range under AtEnd (so the selection step reorders the two non-null
rows) but inside the null sub-range under AtStart (so it does not run):
the relative order of the non-null rows in the output differs between
the two placements. -/
theorem C4_counterexample :
    (PartitionNthToIndicesExec [some (2 : ℤ), some 1, none]
        (some ⟨0, .AtEnd⟩) [0, 0, 0]).2.filter
          (fun i => validAt [some (2 : ℤ), some 1, none] i) ≠
      (PartitionNthToIndicesExec [some (2 : ℤ), some 1, none]
        (some ⟨0, .AtStart⟩) [0, 0, 0]).2.filter
          (fun i => validAt [some (2 : ℤ), some 1, none] i) := by
  rw [show (PartitionNthToIndicesExec [some (2 : ℤ), some 1, none]
        (some ⟨0, .AtEnd⟩) [0, 0, 0]) =
      PartitionNthToIndicesExec [some (2 : ℤ), some 1, none]
        (some ⟨0, NullPlacement.AtEnd⟩) [0, 0, 0] from rfl,
    PartitionNthToIndicesExec_char [some (2 : ℤ), some 1, none] 0
      NullPlacement.AtEnd [0, 0, 0] (by decide),
    PartitionNthToIndicesExec_char [some (2 : ℤ), some 1, none] 0
      NullPlacement.AtStart [0, 0, 0] (by decide),
    if_pos (by decide), if_neg (by decide)]
  have hnn : nonNullIdx [some (2 : ℤ), some 1, none] = [0, 1] := by decide
  have hnl : nullIdx [some (2 : ℤ), some 1, none] = [2] := by decide
  rw [hnn, hnl, stableSortModel]
  have hms : List.mergeSort [0, 1]
      (fun a b =>
        !cmpOf [some (2 : ℤ), some 1, none] SortOrder.Ascending b a) =
      [1, 0] := by
    simp +decide [List.mergeSort]
  rw [hms]
  decide

theorem C4_null_nan_ordering_witness :
    NullsGrouped [some (3 : ℤ), none, some 1]
      NullPlacement.AtEnd
      (ArrayCountSorter.run ⟨1, 3⟩ [some (3 : ℤ), none, some 1]
        (List.range 3) 0 ⟨.Ascending, .AtEnd⟩).1 :=
  C4_null_nan_ordering.2.1 ⟨1, 3⟩ [some (3 : ℤ), none, some 1]
    ⟨.Ascending, .AtEnd⟩
    (by
      intro x hx
      simp only [List.mem_cons, List.not_mem_nil, or_false,
        Option.some.injEq, reduceCtorEq, false_or] at hx
      rcases hx with rfl | rfl <;> decide)

/-- C5: with the configuration built from correct min/max bounds, the
integer counting sorter and the comparison sorter return identical output
permutations and identical partition boundaries, for every order and
placement. -/
theorem C5_count_eq_compare (mn mx : ℤ) (values : List (Option ℤ))
    (options : ArraySortOptions)
    (hbound : ∀ x, (some x) ∈ values → mn ≤ x ∧ x ≤ mx)
    (hmn : mn ≤ mx) (hrange : (mx - mn).toNat + 1 < 2 ^ 32) :
    ArrayCountSorter.run (ArrayCountSorter.SetMinMax mn mx) values
        (List.range values.length) 0 options =
      ArrayCompareSorter values (List.range values.length) 0 options := by
  have hvr := SetMinMax_value_range mn mx hmn hrange
  have hbound2 : ∀ x, (some x) ∈ values →
      (ArrayCountSorter.SetMinMax mn mx).min ≤ x ∧
      (x - (ArrayCountSorter.SetMinMax mn mx).min).toNat <
        (ArrayCountSorter.SetMinMax mn mx).value_range := by
    intro x hx
    rw [SetMinMax_min, hvr]
    have := hbound x hx
    omega
  rw [ArrayCountSorter_run_eq,
    SortInternal_eq_layout _ values options (fun x hx => (hbound2 x hx).2),
    ArrayCompareSorter_eq,
    compare_block_eq_target_int (ArrayCountSorter.SetMinMax mn mx) values
      options.order hbound2]

theorem C5_count_eq_compare_witness :
    ArrayCountSorter.run (ArrayCountSorter.SetMinMax 1 3)
        [some (3 : ℤ), some 1, some 3, some 2] (List.range 4) 0
        ⟨.Descending, .AtStart⟩ =
      ArrayCompareSorter [some (3 : ℤ), some 1, some 3, some 2]
        (List.range 4) 0 ⟨.Descending, .AtStart⟩ :=
  C5_count_eq_compare 1 3 [some (3 : ℤ), some 1, some 3, some 2]
    ⟨.Descending, .AtStart⟩
    (by
      intro x hx
      simp only [List.mem_cons, List.not_mem_nil, or_false,
        Option.some.injEq] at hx
      rcases hx with rfl | rfl | rfl | rfl <;> decide)
    (by decide) (by decide)

/-- C6 (amended): the adaptive integer sorter takes the counting path
exactly when the TOTAL array length (nulls included) is at least 1024,
the null count is less than the length, and the overflow-safe unsigned
value range is at most 4096; in every other case it takes the comparison
path.  The original claim's condition on the non-null length does not
match the code, which compares the total physical length against the
threshold. -/
theorem C6_adaptive_dispatch (values : List (Option ℤ)) (buf : List ℕ)
    (offset : ℕ) (options : ArraySortOptions) :
    (values.length ≥ countsort_min_len ∧
        values.length > values.countP (·.isNone) ∧
        (((GetMinMax values).2 - (GetMinMax values).1).emod (2 ^ 64)).toNat ≤
          countsort_max_range →
      ArrayCountOrCompareSorter values buf offset options =
        ArrayCountSorter.run
          (ArrayCountSorter.SetMinMax (GetMinMax values).1
            (GetMinMax values).2) values buf offset options) ∧
    (¬ (values.length ≥ countsort_min_len ∧
        values.length > values.countP (·.isNone) ∧
        (((GetMinMax values).2 - (GetMinMax values).1).emod (2 ^ 64)).toNat ≤
          countsort_max_range) →
      ArrayCountOrCompareSorter values buf offset options =
        ArrayCompareSorter values buf offset options) :=
  countOrCompare_dispatch values buf offset options

/-- An array of 1023 nulls and one non-null row: total length 1024 meets
the threshold even though only one row is non-null. -/
def exC6 : List (Option ℤ) := List.replicate 1023 none ++ [some 0]

set_option maxRecDepth 16384 in
theorem C6_counterexample :
    (exC6.length ≥ countsort_min_len ∧
        exC6.length > exC6.countP (·.isNone) ∧
        (((GetMinMax exC6).2 - (GetMinMax exC6).1).emod (2 ^ 64)).toNat ≤
          countsort_max_range) ∧
      exC6.countP (·.isSome) < countsort_min_len ∧
      ArrayCountOrCompareSorter exC6 (List.range 1024) 0
          ⟨.Ascending, .AtEnd⟩ =
        ArrayCountSorter.run
          (ArrayCountSorter.SetMinMax (GetMinMax exC6).1 (GetMinMax exC6).2)
          exC6 (List.range 1024) 0 ⟨.Ascending, .AtEnd⟩ :=
  ⟨by decide, by decide,
    (countOrCompare_dispatch exC6 (List.range 1024) 0
      ⟨.Ascending, .AtEnd⟩).1 (by decide)⟩

/-- C3: for an in-range pivot the partition-nth kernel succeeds, every
output position before the pivot references a row ordered `rowLE`-below
the pivot position's row and every later position references a row
ordered above it (ascending order, under the configured null placement),
and the selection step runs only when the pivot falls inside the
non-null sub-range — otherwise the buffer is exactly the
null-partitioned identity permutation. -/
theorem C3_partition_nth (α : Type) [inst : LinearOrder α]
    (values : List (Option α)) (pivot : ℕ) (placement : NullPlacement)
    (outBuf : List ℕ) (hpN : pivot < values.length) :
    (PartitionNthToIndicesExec values (some ⟨pivot, placement⟩)
        outBuf).1 = none ∧
    (∀ q, q < pivot →
      rowLE ⟨.Ascending, placement⟩
        (vAt values ((PartitionNthToIndicesExec values
          (some ⟨pivot, placement⟩) outBuf).2.getD q 0))
        (vAt values ((PartitionNthToIndicesExec values
          (some ⟨pivot, placement⟩) outBuf).2.getD pivot 0))) ∧
    (∀ q, pivot < q → q < values.length →
      rowLE ⟨.Ascending, placement⟩
        (vAt values ((PartitionNthToIndicesExec values
          (some ⟨pivot, placement⟩) outBuf).2.getD pivot 0))
        (vAt values ((PartitionNthToIndicesExec values
          (some ⟨pivot, placement⟩) outBuf).2.getD q 0))) ∧
    (¬ ((PartitionNullsNonStable values 0 (List.range values.length)
            placement).2.non_nulls_begin ≤ pivot ∧
          pivot < (PartitionNullsNonStable values 0
            (List.range values.length) placement).2.non_nulls_end) →
      (PartitionNthToIndicesExec values (some ⟨pivot, placement⟩)
          outBuf).2 =
        (PartitionNullsNonStable values 0 (List.range values.length)
          placement).1) := by
  have hlen := length_nonNull_add_null values
  have hperm_in : List.Perm
      (stableSortModel (cmpOf values .Ascending) (nonNullIdx values))
      (nonNullIdx values) := List.mergeSort_perm _ _
  have hLin : (layoutOf placement
      (stableSortModel (cmpOf values .Ascending) (nonNullIdx values))
      (nullIdx values)).length = values.length := by
    have := (layout_perm_range_of values placement _ hperm_in).length_eq
    simpa using this
  have hsorted : (layoutOf placement
      (stableSortModel (cmpOf values .Ascending) (nonNullIdx values))
      (nullIdx values)).Pairwise
      (fun i j => rowLE ⟨.Ascending, placement⟩ (vAt values i)
        (vAt values j)) := by
    have h := SortedOut_layout values ⟨.Ascending, placement⟩ _ hperm_in
      (compare_block_sorted values ⟨.Ascending, placement⟩)
    rw [SortedOut] at h
    exact h
  rw [PartitionNthToIndicesExec_char values pivot placement outBuf hpN,
    partitionNulls_snd, partitionNulls_fst]
  cases placement with
  | AtEnd =>
      simp only [nprOf]
      by_cases hcond : 0 ≤ pivot ∧ pivot < (nonNullIdx values).length
      · rw [if_pos hcond]
        refine ⟨trivial, ?_, ?_, fun hnc => absurd hcond hnc⟩
        · intro q hq
          exact pairwise_getD hsorted hq (by rw [hLin]; exact hpN)
        · intro q hq hqN
          exact pairwise_getD hsorted hq (by rw [hLin]; exact hqN)
      · rw [if_neg hcond]
        have hge : (nonNullIdx values).length ≤ pivot := by omega
        have hmemp : (layoutOf .AtEnd (nonNullIdx values)
            (nullIdx values)).getD pivot 0 ∈ nullIdx values := by
          show (nonNullIdx values ++ nullIdx values).getD pivot 0 ∈ _
          exact getD_append_right_mem _ _ pivot hge (by omega)
        refine ⟨trivial, ?_, ?_, fun _ => rfl⟩
        · intro q hq
          show rowLE ⟨.Ascending, .AtEnd⟩
            (vAt values ((layoutOf .AtEnd (nonNullIdx values)
              (nullIdx values)).getD q 0))
            (vAt values ((layoutOf .AtEnd (nonNullIdx values)
              (nullIdx values)).getD pivot 0))
          rw [vAt_none_of_invalid (mem_nullIdx.mp hmemp).2]
          exact rowLE_to_none_AtEnd _ _
        · intro q hq hqN
          have hmemq : (layoutOf .AtEnd (nonNullIdx values)
              (nullIdx values)).getD q 0 ∈ nullIdx values := by
            show (nonNullIdx values ++ nullIdx values).getD q 0 ∈ _
            exact getD_append_right_mem _ _ q (by omega) (by omega)
          show rowLE ⟨.Ascending, .AtEnd⟩
            (vAt values ((layoutOf .AtEnd (nonNullIdx values)
              (nullIdx values)).getD pivot 0))
            (vAt values ((layoutOf .AtEnd (nonNullIdx values)
              (nullIdx values)).getD q 0))
          rw [vAt_none_of_invalid (mem_nullIdx.mp hmemp).2,
            vAt_none_of_invalid (mem_nullIdx.mp hmemq).2]
          trivial
  | AtStart =>
      simp only [nprOf]
      by_cases hcond : (nullIdx values).length ≤ pivot ∧
          pivot < (nullIdx values).length + (nonNullIdx values).length
      · rw [if_pos hcond]
        refine ⟨trivial, ?_, ?_, fun hnc => absurd hcond hnc⟩
        · intro q hq
          exact pairwise_getD hsorted hq (by rw [hLin]; exact hpN)
        · intro q hq hqN
          exact pairwise_getD hsorted hq (by rw [hLin]; exact hqN)
      · rw [if_neg hcond]
        have hlt : pivot < (nullIdx values).length := by omega
        have hmemp : (layoutOf .AtStart (nonNullIdx values)
            (nullIdx values)).getD pivot 0 ∈ nullIdx values := by
          show (nullIdx values ++ nonNullIdx values).getD pivot 0 ∈ _
          exact getD_append_left_mem _ _ pivot hlt
        refine ⟨trivial, ?_, ?_, fun _ => rfl⟩
        · intro q hq
          have hmemq : (layoutOf .AtStart (nonNullIdx values)
              (nullIdx values)).getD q 0 ∈ nullIdx values := by
            show (nullIdx values ++ nonNullIdx values).getD q 0 ∈ _
            exact getD_append_left_mem _ _ q (by omega)
          show rowLE ⟨.Ascending, .AtStart⟩
            (vAt values ((layoutOf .AtStart (nonNullIdx values)
              (nullIdx values)).getD q 0))
            (vAt values ((layoutOf .AtStart (nonNullIdx values)
              (nullIdx values)).getD pivot 0))
          rw [vAt_none_of_invalid (mem_nullIdx.mp hmemq).2]
          exact rowLE_from_none_AtStart _ _
        · intro q hq hqN
          show rowLE ⟨.Ascending, .AtStart⟩
            (vAt values ((layoutOf .AtStart (nonNullIdx values)
              (nullIdx values)).getD pivot 0))
            (vAt values ((layoutOf .AtStart (nonNullIdx values)
              (nullIdx values)).getD q 0))
          rw [vAt_none_of_invalid (mem_nullIdx.mp hmemp).2]
          exact rowLE_from_none_AtStart _ _

theorem C3_partition_nth_witness :
    (PartitionNthToIndicesExec [some (5 : ℤ), none, some 1]
        (some ⟨1, .AtEnd⟩) [0, 0, 0]).1 = none :=
  (C3_partition_nth ℤ [some (5 : ℤ), none, some 1] 1 .AtEnd [0, 0, 0]
    (by decide)).1

/-- C7 (amended): for every array of a NON-NULL type, the partition-nth
kernel reports the index-out-of-bound error for `pivot > N`, returning
the output buffer untouched, and returns success with the untouched
identity permutation for `pivot = N`.  The original claim also covered
null-typed arrays, but the null-type specialization performs no pivot
bound check at all — see the counterexample. -/
theorem C7_pivot_boundaries (α : Type) [inst : LinearOrder α]
    (values : List (Option α)) (pivot : ℕ) (placement : NullPlacement)
    (outBuf : List ℕ) :
    (pivot > values.length →
      PartitionNthToIndicesExec values (some ⟨pivot, placement⟩) outBuf =
        (some "NthToIndices index out of bound", outBuf)) ∧
    (pivot = values.length →
      PartitionNthToIndicesExec values (some ⟨pivot, placement⟩) outBuf =
        (none, List.range values.length)) := by
  constructor
  · intro h
    simp only [PartitionNthToIndicesExec]
    rw [if_pos h]
  · intro h
    simp only [PartitionNthToIndicesExec]
    rw [if_neg (by omega), if_pos h]

theorem C7_counterexample :
    (5 : ℕ) > 1 ∧
      PartitionNthToIndicesNullExec 1
        (some ⟨5, NullPlacement.AtEnd⟩) [7] = (none, [0]) :=
  ⟨by decide, rfl⟩

theorem C7_pivot_boundaries_witness :
    PartitionNthToIndicesExec [some (1 : ℤ)] (some ⟨5, .AtEnd⟩) [9] =
      (some "NthToIndices index out of bound", [9]) :=
  (C7_pivot_boundaries ℤ [some (1 : ℤ)] 5 .AtEnd [9]).1 (by decide)

/-- C8: every sorter specialization returns partition boundaries that are
well formed over the buffer it was given: the null and non-null
sub-ranges are contiguous, disjoint and adjacent, their union is the
whole range, and the null sub-range sits at the end selected by the
placement policy. -/
theorem C8_npr_wellformed :
    (∀ (α : Type) [inst : LinearOrder α], ∀ (values : List (Option α))
        (options : ArraySortOptions),
      WellFormedNPR options.null_placement values.length
        (ArrayCompareSorter values (List.range values.length) 0
          options).2) ∧
    (∀ (cfg : ArrayCountSorter.Cfg) (values : List (Option ℤ))
        (options : ArraySortOptions),
      (∀ x, (some x) ∈ values →
        cfg.min ≤ x ∧ (x - cfg.min).toNat < cfg.value_range) →
      WellFormedNPR options.null_placement values.length
        (ArrayCountSorter.run cfg values (List.range values.length) 0
          options).2) ∧
    (∀ (values : List (Option Bool)) (options : ArraySortOptions),
      WellFormedNPR options.null_placement values.length
        (ArrayCountSorterBool values (List.range values.length) 0
          options).2) ∧
    (∀ (buf : List ℕ) (options : ArraySortOptions),
      WellFormedNPR options.null_placement buf.length
        (ArrayNullSorter buf options).2) := by
  refine ⟨?_, ?_, ?_, ?_⟩
  · intro α inst values options
    rw [ArrayCompareSorter_eq]
    have h := nprOf_wellformed options.null_placement
      (nonNullIdx values).length (nullIdx values).length
    rw [length_nonNull_add_null values] at h
    exact h
  · intro cfg values options hbound2
    rw [ArrayCountSorter_run_eq,
      SortInternal_eq_layout cfg values options
        (fun x hx => (hbound2 x hx).2)]
    have h := nprOf_wellformed options.null_placement
      (nonNullIdx values).length (nullIdx values).length
    rw [length_nonNull_add_null values] at h
    exact h
  · intro values options
    rw [ArrayCountSorterBool_eq]
    have h := nprOf_wellformed options.null_placement
      (nonNullIdx values).length (nullIdx values).length
    rw [length_nonNull_add_null values] at h
    exact h
  · intro buf options
    rw [ArrayNullSorter_eq]
    exact NullsOnly_wellformed options.null_placement buf.length

theorem C8_npr_wellformed_witness :
    WellFormedNPR NullPlacement.AtStart 3
      (ArrayCountSorter.run ⟨1, 3⟩ [some (3 : ℤ), none, some 1]
        (List.range 3) 0 ⟨.Descending, .AtStart⟩).2 :=
  C8_npr_wellformed.2.1 ⟨1, 3⟩ [some (3 : ℤ), none, some 1]
    ⟨.Descending, .AtStart⟩
    (by
      intro x hx
      simp only [List.mem_cons, List.not_mem_nil, or_false,
        Option.some.injEq, reduceCtorEq, false_or] at hx
      rcases hx with rfl | rfl <;> decide)

/-- C9: the type dispatcher resolves every type to at most one sorter
specialization — exactly one for the supported types — and a type with no
registered sorter yields the unsupported-type error before the output
buffer is touched, producing no partial result (nested list, struct and
map types among them). -/
theorem C9_dispatcher :
    (∀ t : DataTypeTag,
      (∃ e, GetArraySorterModel (GetPhysicalType t) = .error e) ∨
        ∃! k, GetArraySorterModel (GetPhysicalType t) = .ok k) ∧
    (∀ (t : DataTypeTag) (e : String) (outBuf : List ℕ)
        (run : SorterKind → List ℕ),
      GetArraySorterModel (GetPhysicalType t) = .error e →
      ArraySortIndicesDispatch t outBuf run = (some e, outBuf)) ∧
    GetArraySorterModel (GetPhysicalType .structT) =
      .error "Sorting not supported for type struct" ∧
    GetArraySorterModel (GetPhysicalType .listT) =
      .error "Sorting not supported for type list" ∧
    GetArraySorterModel (GetPhysicalType .mapT) =
      .error "Sorting not supported for type map" := by
  refine ⟨?_, ?_, rfl, rfl, rfl⟩
  · intro t
    cases t <;>
      first
        | exact Or.inl ⟨_, rfl⟩
        | exact Or.inr ⟨_, rfl, fun y hy => (Except.ok.inj hy).symm⟩
  · intro t e outBuf run h
    simp only [ArraySortIndicesDispatch, h]

theorem C9_dispatcher_witness :
    ArraySortIndicesDispatch .structT [1, 2] (fun _ => []) =
      (some "Sorting not supported for type struct", [1, 2]) :=
  C9_dispatcher.2.1 .structT "Sorting not supported for type struct"
    [1, 2] (fun _ => []) rfl

/-- C10: the null-type partition-nth specialization returns success with
the identity permutation for every pivot value — no pivot bound check and
no null partitioning are performed. -/
theorem C10_null_partition_nth (N pivot : ℕ) (placement : NullPlacement)
    (outBuf : List ℕ) :
    PartitionNthToIndicesNullExec N (some ⟨pivot, placement⟩) outBuf =
      (none, List.range N) := rfl
